import Mathlib

/-!
# cskull: a model of `src/cskull.c`

The C program is a single file: a color resolver (`color_from_name`), an art
loader (`load_skull`), the argument handling at the top of `main`, and the
animation loop of `main`.  Each part is embedded below as an executable Lean
function that follows the C text statement by statement.

Conventions of the embedding

* A C string is the list of its characters (`CStr`), without the terminator.
* C `int` values are modelled on `Int`; `/` and `%` of C are `Int.tdiv` and
  `Int.tmod` (truncation toward zero).  The values stay far inside the range
  of `int` except for the frame counter, which grows by one per tick and is
  never set back: its increment is reduced modulo 2^32 into the range of a
  32-bit `int` (`wrap_int`).
* `rand()` is a sequence `rnd : Nat → Nat` of non-negative values together
  with the index of the next value to hand out.
* Library calls that write to the terminal are collected as a list of `Draw`
  records, in program order.
* Executions that leave defined behaviour (a division by zero, a write outside
  `skull_lines`) are a separate result, never a made-up value.
-/

namespace Cskull

/-! ## Strings and the libc comparisons used by the program -/

/-- A C string: its characters in order, terminator not included. -/
abbrev CStr := List Char

/-- ASCII `tolower`: the 26 capital letters are moved to lower case, every other
character is left alone. -/
def tolower (c : Char) : Char :=
  if 65 ≤ c.toNat ∧ c.toNat ≤ 90 then Char.ofNat (c.toNat + 32) else c

/-- The libc `strcmp`, up to the sign of the result: negative, zero or positive as
the first string is below, equal to or above the second one. -/
def strcmp : CStr → CStr → Int
  | [], [] => 0
  | [], _ :: _ => -1
  | _ :: _, [] => 1
  | a :: as, b :: bs =>
    if a = b then strcmp as bs
    else if a.toNat < b.toNat then -1 else 1

/-- The libc `strcasecmp` (ASCII case folding), up to the sign of the result. -/
def strcasecmp : CStr → CStr → Int
  | [], [] => 0
  | [], _ :: _ => -1
  | _ :: _, [] => 1
  | a :: as, b :: bs =>
    if tolower a = tolower b then strcasecmp as bs
    else if (tolower a).toNat < (tolower b).toNat then -1 else 1

/-- Two strings are equal under ASCII case-insensitive comparison: they agree
character by character once capital letters are folded to lower case. -/
def eq_ignore_case (a b : CStr) : Prop :=
  a.map tolower = b.map tolower

instance (a b : CStr) : Decidable (eq_ignore_case a b) := by
  unfold eq_ignore_case; infer_instance

/-! ## `color_from_name` (lines 51-61) -/

/-- Function `color_from_name` of the source; `none` is the NULL pointer. -/
def color_from_name (name : Option CStr) : Int :=
  match name with
  | none => 1
  | some name =>
    if strcasecmp name "green".toList = 0 then 1
    else if strcasecmp name "red".toList = 0 then 2
    else if strcasecmp name "blue".toList = 0 then 3
    else if strcasecmp name "yellow".toList = 0 then 4
    else if strcasecmp name "magenta".toList = 0 then 5
    else if strcasecmp name "cyan".toList = 0 then 6
    else if strcasecmp name "white".toList = 0 then 7
    else 1

/-- The documented palette: the seven color names with their slots. -/
def palette : List (CStr × Int) :=
  [("green".toList, 1), ("red".toList, 2), ("blue".toList, 3), ("yellow".toList, 4),
   ("magenta".toList, 5), ("cyan".toList, 6), ("white".toList, 7)]

/-! ## Argument handling of `main` (lines 76-103) -/

/-- Result of the argument loop of `main` (lines 86-93). -/
inductive Parsed where
  /-- A help flag was met: `print_help(); return 0;` inside the loop. -/
  | help
  /-- The loop ran to its end with these values of `rain_name` and `skull_name`. -/
  | names (rain_name skull_name : Option CStr)
  deriving DecidableEq, Repr

/-- The loop `for (i = 1; i < argc; i++)` of `main`, on the arguments not yet
visited (`argv[i], ..., argv[argc-1]`) and the current `rain_name`, `skull_name`.
The test `i + 1 < argc` holds exactly when a further argument follows. -/
def parse_args : List CStr → Option CStr → Option CStr → Parsed
  | [], rain_name, skull_name => .names rain_name skull_name
  | [a], rain_name, skull_name =>
    if strcmp a "-h".toList = 0 ∨ strcmp a "--help".toList = 0 then .help
    else .names rain_name skull_name
  | a :: v :: rest, rain_name, skull_name =>
    if strcmp a "-r".toList = 0 then parse_args rest (some v) skull_name
    else if strcmp a "-s".toList = 0 then parse_args rest rain_name (some v)
    else if strcmp a "-h".toList = 0 ∨ strcmp a "--help".toList = 0 then .help
    else parse_args (v :: rest) rain_name skull_name

/-- What `main` has done when it leaves its argument handling. -/
inductive Startup where
  /-- The usage text was printed by `print_help()` and `main` returned `code`;
  neither `load_skull` nor `initscr` was called. -/
  | usage (code : Int)
  /-- Lines 100-106 are reached: the two colors are resolved, then
  `load_skull("assets/skull.txt")` and `initscr()` are called. -/
  | proceed (rain_color skull_color : Int)
  deriving DecidableEq, Repr

/-- Lines 76-101 of `main`, on the whole argument vector (`argc = argv.length`,
`argv[0]` the program name). -/
def main_startup (argv : List CStr) : Startup :=
  if (argv.length : Int) < 5 then .usage 0
  else
    match parse_args argv.tail none none with
    | .help => .usage 0
    | .names rain_name skull_name =>
      if rain_name.isNone ∨ skull_name.isNone then .usage 0
      else .proceed (color_from_name rain_name) (color_from_name skull_name)

/-- True exactly for the two help flags. -/
def is_help (a : CStr) : Prop := a = "-h".toList ∨ a = "--help".toList

instance (a : CStr) : Decidable (is_help a) := by unfold is_help; infer_instance

/-! ## `load_skull` (lines 33-48) -/

/-- Constant `MAX_LINES` of the source: the number of rows of `skull_lines`. -/
def MAX_LINES : Nat := 200

/-- Constant `MAX_LEN` of the source: the number of characters of one row. -/
def MAX_LEN : Nat := 200

/-- The string terminator. -/
def NUL : Char := Char.ofNat 0

/-- The C string held in a character buffer: the characters before the first
terminator. -/
def cstr (buf : List Char) : CStr := buf.takeWhile (fun c => c ≠ NUL)

/-- The libc `strlen` of the string held in a buffer. -/
def strlen (buf : List Char) : Nat := (cstr buf).length

/-- The libc `strcspn(buf, "\n")`: the number of characters of the string held in
`buf` that come before its first newline (all of them when it has none). -/
def strcspn_newline (buf : List Char) : Nat :=
  ((cstr buf).takeWhile (fun c => c ≠ '\n')).length

/-- The characters one call of `fgets` takes from the rest of the file when it may
take at most `m`: it stops after a newline, at the end of the file, or after `m`
characters.  The result is (characters taken, rest of the file). -/
def fgets_read : Nat → List Char → List Char × List Char
  | 0, file => ([], file)
  | _ + 1, [] => ([], [])
  | m + 1, c :: file =>
    if c = '\n' then ([c], file)
    else (c :: (fgets_read m file).1, (fgets_read m file).2)

/-- The libc `fgets(row, n, file)`: at most `n - 1` characters are read; `none` is
the NULL result at end of file, when no character could be read.  Otherwise the
characters read are stored in `row` followed by a terminator. -/
def fgets (n : Nat) (file : List Char) : Option (List Char × List Char) :=
  if (fgets_read (n - 1) file).1 = [] then none
  else some ((fgets_read (n - 1) file).1, (fgets_read (n - 1) file).2)

/-- Lines 41-42: the row buffer after `fgets` has stored `chunk` in it and the
statement `row[strcspn(row, "\n")] = 0` has run. -/
def store_line (chunk : List Char) : List Char :=
  (chunk ++ [NUL]).set (strcspn_newline (chunk ++ [NUL])) NUL

/-- How a call of `load_skull` ends. -/
inductive Loaded where
  /-- `fopen` failed: `perror` and `exit(code)`. -/
  | failed (code : Int)
  /-- The loop ended at end of file with these rows written to `skull_lines[0..]`
  and these values of `skull_height` and `skull_width`. -/
  | done (skull_lines : List (List Char)) (skull_height skull_width : Nat)
  /-- A line was read into `skull_lines[skull_height]` with `skull_height` equal to
  `MAX_LINES`: a write outside the array. -/
  | overrun
  /-- The model ran out of steps (this never happens, see `load_skull_total`). -/
  | no_fuel
  deriving DecidableEq, Repr

/-- The loop of lines 41-46 on the unread rest of the file.  Row `skull_height` is
the next one written, so the rows written so far are `skull_lines[0]` up to
`skull_lines[skull_height - 1]`, kept in this order in `lines`. -/
def load_loop : Nat → List Char → List (List Char) → Nat → Nat → Loaded
  | 0, _, _, _, _ => .no_fuel
  | fuel + 1, file, lines, skull_height, skull_width =>
    match fgets MAX_LEN file with
    | none => .done lines skull_height skull_width
    | some (chunk, rest) =>
      if MAX_LINES ≤ skull_height then .overrun
      else
        let w := strlen (store_line chunk)
        load_loop fuel rest (lines ++ [store_line chunk]) (skull_height + 1)
          (if w > skull_width then w else skull_width)

/-- Function `load_skull` of the source, on the content of the file at `path`
(`none` when the file cannot be opened). -/
def load_skull (content : Option (List Char)) : Loaded :=
  match content with
  | none => .failed 1
  | some file => load_loop (file.length + 1) file [] 0 0

/-- The successive character runs `fgets` hands to the loop of `load_skull` for a
file, in order. -/
def reads : Nat → List Char → List (List Char)
  | 0, _ => []
  | fuel + 1, file =>
    match fgets MAX_LEN file with
    | none => []
    | some (chunk, rest) => chunk :: reads fuel rest

/-- The text was stored with only its line terminator removed: `row` is `text`
without a final newline, and no other character is dropped or changed. -/
def newline_removed (text row : CStr) : Prop :=
  text = row ++ ['\n'] ∨ (text = row ∧ '\n' ∉ row)

instance (text row : CStr) : Decidable (newline_removed text row) := by
  unfold newline_removed; infer_instance

/-! ## The animation of `main` (lines 122-188) -/

/-- Struct `Stream` of the source: one falling stream of characters. -/
structure Stream where
  /-- Field `y`: current vertical position of the head. -/
  y : Int
  /-- Field `speed`: the stream moves every `speed`-th tick. -/
  speed : Int
  /-- Field `length`: length of the stream. -/
  length : Int
  /-- Field `counter`: frame counter. -/
  counter : Int
  deriving DecidableEq, Repr

/-- The variables the animation loop reads and never assigns: the terminal size,
the placement of the art, the art itself and the two colors. -/
structure Scene where
  /-- Number of rows of the terminal (`getmaxyx`). -/
  max_y : Int
  /-- Number of columns of the terminal (`getmaxyx`). -/
  max_x : Int
  /-- Top row of the art. -/
  skull_y : Int
  /-- Left column of the art. -/
  skull_x : Int
  /-- Global `skull_height`. -/
  skull_height : Int
  /-- Global `skull_width`. -/
  skull_width : Int
  /-- Global `skull_lines`, the rows written by `load_skull`. -/
  skull_lines : List (List Char)
  /-- Color pair of the rain. -/
  rain_color : Int
  /-- Color pair of the art. -/
  skull_color : Int
  deriving DecidableEq, Repr

/-- State of the animation: the scene, the array `streams`, and the number of
values `rand()` has handed out so far. -/
structure Anim where
  /-- The variables fixed before the loop. -/
  scene : Scene
  /-- Array `streams`, in index order. -/
  streams : List Stream
  /-- Index of the next value of the random sequence. -/
  next : Nat
  deriving DecidableEq, Repr

/-- One write to the terminal. -/
inductive Draw where
  /-- `mvaddch(row, col, ' ')`: the tail of a stream is cleared. -/
  | erase (row col : Int)
  /-- `mvaddwstr(row, col, matrix_chars[index])` under `COLOR_PAIR(color)`: the head
  of a stream is drawn, placed at the cell (`row`, `col`). -/
  | glyph (row col color index : Int)
  /-- `mvprintw(row, col, "%s", text)` under `COLOR_PAIR(color)`: one row of the art. -/
  | art (row col color : Int) (text : CStr)
  deriving DecidableEq, Repr

/-- Local `spacing` of `main`: the distance in columns between two streams. -/
def spacing : Int := 2

/-- Table `matrix_chars` of the source (lines 26-29): the glyphs of the rain, each a
wide string of one character. -/
def matrix_chars : List Char :=
  ['日', '本', '語', '力', '夢', '電', '光', '心', '流',
   '界', '神', '無', '空', '天', '黒', '白', '龍', '星']

/-- Constant `num_matrix_chars` of the source: the size of `matrix_chars`. -/
def num_matrix_chars : Int := matrix_chars.length

/-- The libc `wcwidth` on what the program draws: the number of terminal columns a
character takes.  The CJK unified ideographs U+4E00..U+9FFF are wide characters
of two columns; other printable characters are given one column. -/
def wcwidth (c : Char) : Nat :=
  if 0x4E00 ≤ c.toNat ∧ c.toNat ≤ 0x9FFF then 2 else 1

/-- The cells of the terminal the head draw of a stream writes: `mvaddwstr` places
the glyph at (`row`, `col`) and the glyph covers as many columns, from `col` to the
right, as it is wide.  Other writes are no head draw. -/
def head_cells : Draw → List (Int × Int)
  | .glyph row col _ index =>
    (List.range (wcwidth (matrix_chars.getD index.toNat ' '))).map
      fun (j : Nat) => (row, col + (j : Int))
  | _ => []

/-- The cell lies inside the placement rectangle of the art (the test `in_skull` of
lines 156-158). -/
def in_skull (sc : Scene) (row col : Int) : Prop :=
  sc.skull_y ≤ row ∧ row < sc.skull_y + sc.skull_height ∧
  sc.skull_x ≤ col ∧ col < sc.skull_x + sc.skull_width

instance (sc : Scene) (row col : Int) : Decidable (in_skull sc row col) := by
  unfold in_skull; infer_instance

/-- Lines 149-172: the visible step of a stream in column `x`, taken when the
gating test has passed.  `k` is the index of the next random value; the result is
the stream after the step, the writes to the terminal in order, and the index of
the next random value afterwards. -/
def stream_step (sc : Scene) (x : Int) (rnd : Nat → Nat) (k : Nat) (s : Stream) :
    Stream × List Draw × Nat :=
  let tail := s.y - s.length
  let cleared := if 0 ≤ tail ∧ tail < sc.max_y then [Draw.erase tail x] else []
  let draws := 0 ≤ s.y ∧ s.y < sc.max_y ∧ ¬ in_skull sc s.y x
  let head := if draws then
      [Draw.glyph s.y x sc.rain_color (Int.tmod (rnd k) num_matrix_chars)] else []
  let k1 := if draws then k + 1 else k
  let y1 := s.y + 1
  if y1 - s.length > sc.max_y then
    ({ s with y := Int.tmod (-(rnd k1 : Int)) 20,
              length := 8 + Int.tmod (rnd (k1 + 1)) 10 }, cleared ++ head, k1 + 2)
  else
    ({ s with y := y1 }, cleared ++ head, k1)

/-- Largest value of a 32-bit `int`. -/
def INT_MAX : Int := 2147483647

/-- Smallest value of a 32-bit `int`. -/
def INT_MIN : Int := -2147483648

/-- The value a 32-bit `int` holds for the arithmetic result `x`: `x` reduced modulo
2^32 into `INT_MIN..INT_MAX` (two's complement wrap-around). -/
def wrap_int (x : Int) : Int := (x - INT_MIN) % 4294967296 + INT_MIN

/-- Lines 144-173: one tick of stream number `i`.  The `int` counter is incremented
(`s->counter++`), and the step is taken when `counter % speed == 0`; `none` is the
division by zero of that test when `speed` is 0. -/
def stream_tick (sc : Scene) (i : Nat) (rnd : Nat → Nat) (k : Nat) (s : Stream) :
    Option (Stream × List Draw × Nat) :=
  let s1 := { s with counter := wrap_int (s.counter + 1) }
  let x := (i : Int) * spacing
  if s1.speed = 0 then none
  else if Int.tmod s1.counter s1.speed = 0 then some (stream_step sc x rnd k s1)
  else some (s1, [], k)

/-- The loop of line 143 from stream number `i` on: the streams are ticked in index
order, each one taking its random values after the one before. -/
def tick_streams (sc : Scene) (rnd : Nat → Nat) :
    Nat → List Stream → Nat → Option (List Stream × List Draw × Nat)
  | _, [], k => some ([], [], k)
  | i, s :: rest, k =>
    match stream_tick sc i rnd k s with
    | none => none
    | some (s1, ops, k1) =>
      match tick_streams sc rnd (i + 1) rest k1 with
      | none => none
      | some (rest1, ops1, k2) => some (s1 :: rest1, ops ++ ops1, k2)

/-- Lines 177-181: the rows of the art are printed at the placement rectangle. -/
def draw_skull (sc : Scene) : List Draw :=
  (List.range sc.skull_height.toNat).map fun (i : Nat) =>
    Draw.art (sc.skull_y + (i : Int)) sc.skull_x sc.skull_color
      (cstr (sc.skull_lines.getD i []))

/-- One pass of the loop body of lines 143-181 (one tick of the animation): all
streams are ticked, then the art is drawn. -/
def frame (rnd : Nat → Nat) (a : Anim) : Option (Anim × List Draw) :=
  match tick_streams a.scene rnd 0 a.streams a.next with
  | none => none
  | some (streams, ops, k) =>
    some ({ a with streams := streams, next := k }, ops ++ draw_skull a.scene)

/-- The state after `n` ticks of the animation (the loop goes on until a key is
pressed, so every `n` is possible). -/
def run (rnd : Nat → Nat) : Nat → Anim → Option Anim
  | 0, a => some a
  | n + 1, a =>
    match frame rnd a with
    | none => none
    | some (a1, _) => run rnd n a1

/-- Lines 130-135: the streams are set up one after the other, three random values
each; `none` is the division by zero of `rand() % max_y` when `max_y` is 0. -/
def init_streams (max_y : Int) (rnd : Nat → Nat) : Nat → Nat → Option (List Stream × Nat)
  | 0, k => some ([], k)
  | n + 1, k =>
    if max_y = 0 then none
    else
      match init_streams max_y rnd n (k + 3) with
      | none => none
      | some (rest, k1) =>
        some ({ y := Int.tmod (rnd k) max_y,
                speed := 1 + Int.tmod (rnd (k + 1)) 3,
                length := 8 + Int.tmod (rnd (k + 2)) 10,
                counter := 0 } :: rest, k1)

/-- Lines 138-139: the top row `skull_y` and the left column `skull_x` of the
placement rectangle, for a terminal of `max_y` rows and `max_x` columns. -/
def center_skull (max_y max_x skull_height skull_width : Int) : Int × Int :=
  (Int.tdiv max_y 2 - Int.tdiv skull_height 2, Int.tdiv max_x 2 - Int.tdiv skull_width 2)

/-- Lines 122-139: the state before the first tick, for a terminal of `max_y` rows
and `max_x` columns and the art left by `load_skull`. -/
def init_anim (max_y max_x : Int) (skull_lines : List (List Char))
    (skull_height skull_width rain_color skull_color : Int) (rnd : Nat → Nat) :
    Option Anim :=
  let num_streams := Int.tdiv max_x spacing
  match init_streams max_y rnd num_streams.toNat 0 with
  | none => none
  | some (streams, k) =>
    some { scene := { max_y := max_y, max_x := max_x,
                      skull_y := (center_skull max_y max_x skull_height skull_width).1,
                      skull_x := (center_skull max_y max_x skull_height skull_width).2,
                      skull_height := skull_height, skull_width := skull_width,
                      skull_lines := skull_lines,
                      rain_color := rain_color, skull_color := skull_color },
           streams := streams, next := k }

/-- A stream as `main` sets it up: speed in 1..3 and length in 8..17. -/
def stream_ok (s : Stream) : Prop :=
  1 ≤ s.speed ∧ s.speed ≤ 3 ∧ 8 ≤ s.length ∧ s.length ≤ 17

instance (s : Stream) : Decidable (stream_ok s) := by unfold stream_ok; infer_instance

/-- The ticks of one stream, counted: the stream after `n` ticks together with the
number of ticks on which the gating test passed, that is, on which the step was
taken.  `ks t` is the index of the next random value when tick `t` begins (the
other streams take values in between). -/
def run_stream (sc : Scene) (i : Nat) (rnd : Nat → Nat) :
    Nat → (Nat → Nat) → Stream → Option (Stream × Nat)
  | 0, _, s => some (s, 0)
  | n + 1, ks, s =>
    match stream_tick sc i rnd (ks 0) s with
    | none => none
    | some (s1, _, _) =>
      match run_stream sc i rnd n (fun t => ks (t + 1)) s1 with
      | none => none
      | some (s2, steps) =>
        some (s2, steps + if Int.tmod (wrap_int (s.counter + 1)) s.speed = 0 then 1 else 0)

/-- The argument list gives `flag` the value `v`: `flag` stands somewhere in it and
`v` is the argument right after. -/
def gives (flag v : CStr) (args : List CStr) : Prop :=
  (flag, v) ∈ args.zip args.tail

instance (flag v : CStr) (args : List CStr) : Decidable (gives flag v args) := by
  unfold gives; infer_instance

/-- The argument at place `k` of the argument list (place 0 is the first argument
after the program name) counts as the value of a flag: the argument before it is
`-r` or `-s` and does not itself count as a value.  These are the places the loop
of `main` steps over with `argv[++i]`. -/
def read_as_value (args : List CStr) : Nat → Bool
  | 0 => false
  | k + 1 =>
    (decide (args[k]? = some "-r".toList) || decide (args[k]? = some "-s".toList)) &&
      !read_as_value args k

/-- An argument the loop of `main` does not recognise: none of `-r`, `-s`, `-h`,
`--help`. -/
def unrecognised (a : CStr) : Prop :=
  a ≠ "-r".toList ∧ a ≠ "-s".toList ∧ ¬ is_help a

instance (a : CStr) : Decidable (unrecognised a) := by unfold unrecognised; infer_instance

/-! ## Facts about the string comparisons -/

theorem strcmp_eq_zero_iff (a b : CStr) : strcmp a b = 0 ↔ a = b := by
  induction a generalizing b with
  | nil => cases b <;> simp [strcmp]
  | cons x xs ih =>
    cases b with
    | nil => simp [strcmp]
    | cons y ys =>
      by_cases hxy : x = y
      · simp [strcmp, hxy, ih]
      · by_cases hlt : x.toNat < y.toNat <;> simp [strcmp, hxy, hlt]

theorem strcasecmp_eq_zero_iff (a b : CStr) : strcasecmp a b = 0 ↔ eq_ignore_case a b := by
  induction a generalizing b with
  | nil => cases b <;> simp [strcasecmp, eq_ignore_case]
  | cons x xs ih =>
    cases b with
    | nil => simp [strcasecmp, eq_ignore_case]
    | cons y ys =>
      by_cases hxy : tolower x = tolower y
      · have h := ih ys
        simp only [eq_ignore_case] at h
        simp [strcasecmp, eq_ignore_case, hxy, h]
      · by_cases hlt : (tolower x).toNat < (tolower y).toNat <;>
          simp [strcasecmp, eq_ignore_case, hxy, hlt]

theorem eq_ignore_case_congr {s c : CStr} (h : eq_ignore_case s c) (d : CStr) :
    eq_ignore_case s d ↔ c.map tolower = d.map tolower := by
  unfold eq_ignore_case at h ⊢
  rw [h]

/-! ## Facts about the argument loop -/

theorem parse_args_single (a : CStr) (r s : Option CStr) :
    parse_args [a] r s = if is_help a then .help else .names r s := by
  simp only [parse_args, strcmp_eq_zero_iff, is_help]

theorem parse_args_pair (a v : CStr) (rest : List CStr) (r s : Option CStr) :
    parse_args (a :: v :: rest) r s =
      if a = "-r".toList then parse_args rest (some v) s
      else if a = "-s".toList then parse_args rest r (some v)
      else if is_help a then .help
      else parse_args (v :: rest) r s := by
  simp only [parse_args, strcmp_eq_zero_iff, is_help]

theorem is_help_ne_flags {a : CStr} (h : is_help a) : a ≠ "-r".toList ∧ a ≠ "-s".toList := by
  rcases h with rfl | rfl <;> decide

theorem parse_args_help_head (a : CStr) (post : List CStr) (r s : Option CStr)
    (ha : is_help a) : parse_args (a :: post) r s = .help := by
  cases post with
  | nil => rw [parse_args_single, if_pos ha]
  | cons v rest =>
    rw [parse_args_pair, if_neg (is_help_ne_flags ha).1, if_neg (is_help_ne_flags ha).2,
      if_pos ha]

theorem read_as_value_skip (a : CStr) (l : List CStr)
    (ha : ¬ (a = "-r".toList ∨ a = "-s".toList)) :
    ∀ j, read_as_value (a :: l) (j + 1) = read_as_value l j
  | 0 => by
    have h1 : a ≠ ['-', 'r'] := fun h => ha (Or.inl h)
    have h2 : a ≠ ['-', 's'] := fun h => ha (Or.inr h)
    simp [read_as_value, h1, h2]
  | j + 1 => by
    have ih := read_as_value_skip a l ha j
    have hstep : read_as_value (a :: l) (j + 1 + 1) =
        ((decide ((a :: l)[j + 1]? = some "-r".toList) ||
          decide ((a :: l)[j + 1]? = some "-s".toList)) &&
          !read_as_value (a :: l) (j + 1)) := rfl
    rw [hstep, ih]
    simp [read_as_value]

theorem read_as_value_flag (a v : CStr) (l : List CStr)
    (ha : a = "-r".toList ∨ a = "-s".toList) :
    read_as_value (a :: v :: l) 1 = true ∧
    ∀ j, read_as_value (a :: v :: l) (j + 2) = read_as_value l j := by
  have h1 : read_as_value (a :: v :: l) 1 = true := by
    rcases ha with rfl | rfl <;> simp [read_as_value]
  refine ⟨h1, ?_⟩
  intro j
  induction j with
  | zero =>
    have hstep : read_as_value (a :: v :: l) (0 + 2) =
        ((decide ((a :: v :: l)[1]? = some "-r".toList) ||
          decide ((a :: v :: l)[1]? = some "-s".toList)) &&
          !read_as_value (a :: v :: l) 1) := rfl
    rw [hstep, h1]
    simp [read_as_value]
  | succ j ih =>
    have hstep : read_as_value (a :: v :: l) (j + 1 + 2) =
        ((decide ((a :: v :: l)[j + 2]? = some "-r".toList) ||
          decide ((a :: v :: l)[j + 2]? = some "-s".toList)) &&
          !read_as_value (a :: v :: l) (j + 2)) := rfl
    rw [hstep, ih]
    simp [read_as_value]

/-- A help flag at a place that does not count as the value of a flag ends the loop
with the usage text, whatever comes before and after it. -/
theorem parse_args_help_flag : ∀ (args : List CStr) (r s : Option CStr) (k : Nat) (h : CStr),
    args[k]? = some h → is_help h → read_as_value args k = false →
    parse_args args r s = .help
  | [], _, _, k, h, hk, _, _ => by simp at hk
  | [a], r, s, 0, h, hk, hh, _ => by
    simp only [List.getElem?_cons_zero, Option.some.injEq] at hk
    subst hk
    exact parse_args_help_head a [] r s hh
  | [a], _, _, k + 1, h, hk, _, _ => by simp at hk
  | a :: v :: rest, r, s, 0, h, hk, hh, _ => by
    simp only [List.getElem?_cons_zero, Option.some.injEq] at hk
    subst hk
    exact parse_args_help_head a (v :: rest) r s hh
  | a :: v :: rest, r, s, k + 1, h, hk, hh, hv => by
    rw [parse_args_pair]
    have hk1 : (v :: rest)[k]? = some h := by simpa using hk
    have hflag : ∀ (r1 s1 : Option CStr), (a = "-r".toList ∨ a = "-s".toList) →
        parse_args rest r1 s1 = .help := by
      intro r1 s1 ha
      obtain ⟨h1, h2⟩ := read_as_value_flag a v rest ha
      cases k with
      | zero => rw [h1] at hv; exact absurd hv (by simp)
      | succ j =>
        have hj : rest[j]? = some h := by simpa using hk1
        exact parse_args_help_flag rest r1 s1 j h hj hh ((h2 j).symm.trans hv)
    split_ifs with ha hb hc
    · exact hflag _ _ (Or.inl ha)
    · exact hflag _ _ (Or.inr hb)
    · rfl
    · have hno : ¬ (a = "-r".toList ∨ a = "-s".toList) := fun h => h.elim ha hb
      exact parse_args_help_flag (v :: rest) r s k h hk1 hh
        ((read_as_value_skip a (v :: rest) hno k).symm.trans hv)

/-- The loop prints the usage text for a help flag in no other case. -/
theorem parse_args_help_only : ∀ (args : List CStr) (r s : Option CStr),
    parse_args args r s = .help →
    ∃ k h, args[k]? = some h ∧ is_help h ∧ read_as_value args k = false
  | [], _, _, hp => by simp [parse_args] at hp
  | [a], r, s, hp => by
    rw [parse_args_single] at hp
    split_ifs at hp with ha
    exact ⟨0, a, rfl, ha, rfl⟩
  | a :: v :: rest, r, s, hp => by
    rw [parse_args_pair] at hp
    have hflag : ∀ (r1 s1 : Option CStr), (a = "-r".toList ∨ a = "-s".toList) →
        parse_args rest r1 s1 = .help →
        ∃ k h, (a :: v :: rest)[k]? = some h ∧ is_help h ∧
          read_as_value (a :: v :: rest) k = false := by
      intro r1 s1 ha hp1
      obtain ⟨j, h, hj, hh, hv⟩ := parse_args_help_only rest r1 s1 hp1
      exact ⟨j + 2, h, by simpa using hj, hh, ((read_as_value_flag a v rest ha).2 j).trans hv⟩
    split_ifs at hp with ha hb hc
    · exact hflag _ _ (Or.inl ha) hp
    · exact hflag _ _ (Or.inr hb) hp
    · exact ⟨0, a, rfl, hc, rfl⟩
    · have hno : ¬ (a = "-r".toList ∨ a = "-s".toList) := fun h => h.elim ha hb
      obtain ⟨j, h, hj, hh, hv⟩ := parse_args_help_only (v :: rest) r s hp
      exact ⟨j + 1, h, by simpa using hj, hh,
        (read_as_value_skip a (v :: rest) hno j).trans hv⟩

/-- Unrecognised arguments are skipped without any effect. -/
theorem parse_args_skip : ∀ (pre l : List CStr) (r s : Option CStr),
    (∀ x ∈ pre, unrecognised x) → parse_args (pre ++ l) r s = parse_args l r s
  | [], _, _, _, _ => rfl
  | x :: pre, l, r, s, h => by
    have hx : unrecognised x := h x (List.mem_cons_self _ _)
    have ih := parse_args_skip pre l r s (fun y hy => h y (List.mem_cons_of_mem _ hy))
    show parse_args (x :: (pre ++ l)) r s = parse_args l r s
    cases hpl : pre ++ l with
    | nil =>
      rw [hpl] at ih
      rw [parse_args_single, if_neg hx.2.2, ← ih]
      rfl
    | cons v rest =>
      rw [hpl] at ih
      rw [parse_args_pair, if_neg hx.1, if_neg hx.2.1, if_neg hx.2.2, ih]

theorem gives_cons_cons (flag w a v : CStr) (rest : List CStr) :
    gives flag w (a :: v :: rest) ↔ (a = flag ∧ v = w) ∨ gives flag w (v :: rest) := by
  simp only [gives, List.tail_cons, List.zip_cons_cons, List.mem_cons, Prod.mk.injEq]
  constructor
  · rintro (⟨h1, h2⟩ | h)
    · exact Or.inl ⟨h1.symm, h2.symm⟩
    · exact Or.inr h
  · rintro (⟨h1, h2⟩ | h)
    · exact Or.inl ⟨h1.symm, h2.symm⟩
    · exact Or.inr h

theorem gives_cons (flag w a : CStr) (l : List CStr) (h : gives flag w l) :
    gives flag w (a :: l) := by
  cases l with
  | nil => simp [gives] at h
  | cons v rest => exact (gives_cons_cons flag w a v rest).mpr (Or.inr h)

/-- When no occurrence of `-r` is followed by an argument, the loop never assigns
`rain_name`. -/
theorem parse_args_rain_unset : ∀ (l : List CStr) (r s : Option CStr),
    (∀ v, ¬ gives "-r".toList v l) →
    parse_args l r s = .help ∨ ∃ s', parse_args l r s = .names r s'
  | [], r, s, _ => Or.inr ⟨s, rfl⟩
  | [a], r, s, _ => by
    rw [parse_args_single]
    split_ifs
    · exact Or.inl rfl
    · exact Or.inr ⟨s, rfl⟩
  | a :: v :: rest, r, s, h => by
    have h2 : ∀ w, ¬ gives "-r".toList w (v :: rest) :=
      fun w hw => h w ((gives_cons_cons _ w a v rest).mpr (Or.inr hw))
    have h1 : ∀ w, ¬ gives "-r".toList w rest :=
      fun w hw => h2 w (gives_cons _ w v rest hw)
    rw [parse_args_pair]
    split_ifs with ha hb hc
    · exact absurd ((gives_cons_cons _ v a v rest).mpr (Or.inl ⟨ha, rfl⟩)) (h v)
    · exact parse_args_rain_unset rest r (some v) h1
    · exact Or.inl rfl
    · exact parse_args_rain_unset (v :: rest) r s h2

/-- When no occurrence of `-s` is followed by an argument, the loop never assigns
`skull_name`. -/
theorem parse_args_skull_unset : ∀ (l : List CStr) (r s : Option CStr),
    (∀ v, ¬ gives "-s".toList v l) →
    parse_args l r s = .help ∨ ∃ r', parse_args l r s = .names r' s
  | [], r, s, _ => Or.inr ⟨r, rfl⟩
  | [a], r, s, _ => by
    rw [parse_args_single]
    split_ifs
    · exact Or.inl rfl
    · exact Or.inr ⟨r, rfl⟩
  | a :: v :: rest, r, s, h => by
    have h2 : ∀ w, ¬ gives "-s".toList w (v :: rest) :=
      fun w hw => h w ((gives_cons_cons _ w a v rest).mpr (Or.inr hw))
    have h1 : ∀ w, ¬ gives "-s".toList w rest :=
      fun w hw => h2 w (gives_cons _ w v rest hw)
    rw [parse_args_pair]
    split_ifs with ha hb hc
    · exact parse_args_skull_unset rest (some v) s h1
    · exact absurd ((gives_cons_cons _ v a v rest).mpr (Or.inl ⟨hb, rfl⟩)) (h v)
    · exact Or.inl rfl
    · exact parse_args_skull_unset (v :: rest) r s h2

/-! ## Facts about `fgets` and the row buffers -/

theorem takeWhile_stop (p : Char → Bool) (u e : List Char) (x : Char)
    (hu : ∀ c ∈ u, p c = true) (hx : p x = false) : (u ++ x :: e).takeWhile p = u := by
  rw [List.takeWhile_append_of_pos hu]
  simp [List.takeWhile_cons, hx]

theorem set_length_append (u l : List Char) (x : Char) :
    (u ++ l).set u.length x = u ++ l.set 0 x := by
  induction u with
  | nil => rfl
  | cons c u ih => simp [ih]

theorem cstr_split (buf : List Char) : ∃ e, buf ++ [NUL] = cstr buf ++ NUL :: e := by
  induction buf with
  | nil => exact ⟨[], rfl⟩
  | cons c l ih =>
    by_cases hc : c = NUL
    · exact ⟨l ++ [NUL], by simp [cstr, List.takeWhile_cons, hc]⟩
    · obtain ⟨e, he⟩ := ih
      refine ⟨e, ?_⟩
      simp only [cstr] at he
      simp [cstr, List.takeWhile_cons, hc, he]

theorem cstr_no_nul (buf : List Char) : ∀ c ∈ cstr buf, c ≠ NUL := by
  intro c hc
  have := List.mem_takeWhile_imp hc
  simpa using this

theorem cstr_eq_self (buf : List Char) (h : NUL ∉ buf) : cstr buf = buf := by
  unfold cstr
  rw [List.takeWhile_eq_self_iff]
  intro x hx
  have : x ≠ NUL := fun hxn => h (hxn ▸ hx)
  simpa using this

theorem cstr_append_nul (buf : List Char) : cstr (buf ++ [NUL]) = cstr buf := by
  obtain ⟨e, he⟩ := cstr_split buf
  rw [he]
  exact takeWhile_stop _ _ _ _ (by simpa using cstr_no_nul buf) (by simp)

/-- The string left in a row by lines 41-42 is the string `fgets` stored, cut at its
first newline. -/
theorem cstr_store_line (chunk : List Char) :
    cstr (store_line chunk) = (cstr chunk).takeWhile (fun c => c ≠ '\n') := by
  obtain ⟨e, he⟩ := cstr_split chunk
  have hsplit := List.takeWhile_append_dropWhile (fun c => decide (c ≠ '\n')) (cstr chunk)
  have hu : ∀ c ∈ (cstr chunk).takeWhile (fun c => c ≠ '\n'), c ≠ NUL :=
    fun c hc => cstr_no_nul chunk c ((List.takeWhile_sublist _).subset hc)
  have hbuf : chunk ++ [NUL] = (cstr chunk).takeWhile (fun c => c ≠ '\n') ++
      ((cstr chunk).dropWhile (fun c => c ≠ '\n') ++ NUL :: e) := by
    rw [← List.append_assoc, hsplit, he]
  unfold store_line strcspn_newline
  rw [cstr_append_nul]
  conv_lhs => rw [hbuf]
  rw [set_length_append]
  cases hd : (cstr chunk).dropWhile (fun c => c ≠ '\n') with
  | nil =>
    simp only [List.nil_append, List.set_cons_zero]
    exact takeWhile_stop _ _ _ _ (by simpa using hu) (by simp)
  | cons d ds =>
    simp only [List.cons_append, List.set_cons_zero]
    exact takeWhile_stop _ _ _ _ (by simpa using hu) (by simp)

theorem strlen_store_line_le (chunk : List Char) :
    strlen (store_line chunk) ≤ chunk.length := by
  unfold strlen
  rw [cstr_store_line]
  exact le_trans (List.takeWhile_sublist _).length_le (List.takeWhile_sublist _).length_le

theorem fgets_read_append (m : Nat) (file : List Char) :
    (fgets_read m file).1 ++ (fgets_read m file).2 = file := by
  induction m generalizing file with
  | zero => simp [fgets_read]
  | succ m ih =>
    cases file with
    | nil => simp [fgets_read]
    | cons c file =>
      by_cases hc : c = '\n'
      · simp [fgets_read, hc]
      · simp [fgets_read, hc, ih]

theorem fgets_read_length (m : Nat) (file : List Char) :
    (fgets_read m file).1.length ≤ m := by
  induction m generalizing file with
  | zero => simp [fgets_read]
  | succ m ih =>
    cases file with
    | nil => simp [fgets_read]
    | cons c file =>
      by_cases hc : c = '\n'
      · simp [fgets_read, hc]
      · simpa [fgets_read, hc] using ih file

/-- What `fgets` reads holds a newline at its end only. -/
theorem fgets_read_shape (m : Nat) (file : List Char) :
    ∃ body, '\n' ∉ body ∧
      ((fgets_read m file).1 = body ∨ (fgets_read m file).1 = body ++ ['\n']) := by
  induction m generalizing file with
  | zero => exact ⟨[], by simp, Or.inl (by simp [fgets_read])⟩
  | succ m ih =>
    cases file with
    | nil => exact ⟨[], by simp, Or.inl (by simp [fgets_read])⟩
    | cons c file =>
      by_cases hc : c = '\n'
      · exact ⟨[], by simp, Or.inr (by simp [fgets_read, hc])⟩
      · obtain ⟨body, hb, h⟩ := ih file
        refine ⟨c :: body, ?_, ?_⟩
        · simp only [List.mem_cons, not_or]
          exact ⟨fun h => hc h.symm, hb⟩
        · rcases h with h | h
          · exact Or.inl (by simp [fgets_read, hc, h])
          · exact Or.inr (by simp [fgets_read, hc, h])

theorem fgets_some {n : Nat} {file chunk rest : List Char}
    (h : fgets n file = some (chunk, rest)) :
    chunk ≠ [] ∧ chunk ++ rest = file ∧ chunk.length ≤ n - 1 ∧
    ∃ body, '\n' ∉ body ∧ (chunk = body ∨ chunk = body ++ ['\n']) := by
  unfold fgets at h
  split_ifs at h with h0
  simp only [Option.some.injEq, Prod.mk.injEq] at h
  obtain ⟨rfl, rfl⟩ := h
  exact ⟨h0, fgets_read_append _ _, fgets_read_length _ _, fgets_read_shape _ _⟩

/-- Lines 41-42 store what `fgets` read with only the newline removed. -/
theorem newline_removed_store_line (chunk : List Char)
    (h : ∃ body, '\n' ∉ body ∧ (chunk = body ∨ chunk = body ++ ['\n'])) :
    newline_removed (cstr chunk) (cstr (store_line chunk)) := by
  obtain ⟨body, hb, hc⟩ := h
  have hnl : ¬ ('\n' = NUL) := by decide
  have hcb : ∀ c ∈ cstr body, (decide (c ≠ '\n')) = true := by
    intro c hc
    have hmem : c ∈ body := (List.takeWhile_sublist _).subset hc
    have : c ≠ '\n' := fun h => hb (h ▸ hmem)
    simpa using this
  have hrow : (cstr body).takeWhile (fun c => c ≠ '\n') = cstr body := by
    rw [List.takeWhile_eq_self_iff]
    exact hcb
  have hfree : '\n' ∉ cstr body := fun h => hb ((List.takeWhile_sublist _).subset h)
  rw [cstr_store_line]
  rcases hc with rfl | rfl
  · rw [hrow]
    exact Or.inr ⟨rfl, hfree⟩
  · by_cases hnul : NUL ∈ body
    · have hsame : cstr (body ++ ['\n']) = cstr body := by
        obtain ⟨pre, post, rfl⟩ := List.append_of_mem hnul
        clear hrow hfree hcb hb hnul
        induction pre with
        | nil => simp [cstr, List.takeWhile_cons]
        | cons c pre ih =>
          by_cases hcn : c = NUL
          · simp [cstr, List.takeWhile_cons, hcn]
          · simpa [cstr, List.takeWhile_cons, hcn] using ih
      rw [hsame, hrow]
      exact Or.inr ⟨rfl, hfree⟩
    · have hfull : cstr (body ++ ['\n']) = body ++ ['\n'] := by
        apply cstr_eq_self
        simp only [List.mem_append, List.mem_singleton, not_or]
        exact ⟨hnul, fun h => hnl h.symm⟩
      rw [hfull]
      have hb2 : ∀ c ∈ body, (decide (c ≠ '\n')) = true := by
        intro c hc
        have : c ≠ '\n' := fun h => hb (h ▸ hc)
        simpa using this
      have : (body ++ ['\n']).takeWhile (fun c => c ≠ '\n') = body := by
        have := takeWhile_stop (fun c => decide (c ≠ '\n')) body [] '\n' hb2 (by simp)
        simpa using this
      rw [this]
      exact Or.inl rfl

/-! ## Facts about the loop of `load_skull` -/

/-- Every run of characters read for a file is non-empty, at most `MAX_LEN - 1`
long, has a newline at its end only, and is made of characters of the file. -/
theorem reads_chunk (fuel : Nat) (file : List Char) :
    ∀ chunk ∈ reads fuel file, chunk ≠ [] ∧ chunk.length ≤ MAX_LEN - 1 ∧
      (∃ body, '\n' ∉ body ∧ (chunk = body ∨ chunk = body ++ ['\n'])) ∧
      ∀ c ∈ chunk, c ∈ file := by
  induction fuel generalizing file with
  | zero => simp [reads]
  | succ fuel ih =>
    intro chunk hmem
    unfold reads at hmem
    cases hf : fgets MAX_LEN file with
    | none => simp [hf] at hmem
    | some cr =>
      obtain ⟨ch, rest⟩ := cr
      obtain ⟨h1, h2, h3, h4⟩ := fgets_some hf
      simp only [hf, List.mem_cons] at hmem
      rcases hmem with rfl | hmem
      · exact ⟨h1, h3, h4, fun c hc => h2 ▸ List.mem_append_left _ hc⟩
      · obtain ⟨g1, g2, g3, g4⟩ := ih rest chunk hmem
        exact ⟨g1, g2, g3, fun c hc => h2 ▸ List.mem_append_right _ (g4 c hc)⟩

/-- The runs of characters read for a file are the file, cut into pieces. -/
theorem reads_flatten (fuel : Nat) (file : List Char) (h : file.length < fuel) :
    (reads fuel file).flatten = file := by
  induction fuel generalizing file with
  | zero => omega
  | succ fuel ih =>
    unfold reads
    cases hf : fgets MAX_LEN file with
    | none =>
      unfold fgets at hf
      split_ifs at hf with h0
      cases file with
      | nil => rfl
      | cons c file =>
        exfalso
        by_cases hc : c = '\n' <;> simp [MAX_LEN, fgets_read, hc] at h0
    | some cr =>
      obtain ⟨ch, rest⟩ := cr
      obtain ⟨h1, h2, _, _⟩ := fgets_some hf
      have hlen : rest.length < fuel := by
        have h3 := congrArg List.length h2
        have h4 : 0 < ch.length := List.length_pos.mpr h1
        simp only [List.length_append] at h3
        omega
      simp only [List.flatten_cons, ih rest hlen, h2]

/-- The loop of `load_skull` in closed form: it ends at end of file when the rows
fit into `skull_lines`, and writes outside the array otherwise. -/
theorem load_loop_eq (fuel : Nat) (file : List Char) (lines : List (List Char))
    (height width : Nat) (hfuel : file.length < fuel) (hh : height ≤ MAX_LINES) :
    load_loop fuel file lines height width =
      if height + (reads fuel file).length ≤ MAX_LINES then
        .done (lines ++ (reads fuel file).map store_line)
          (height + (reads fuel file).length)
          (((reads fuel file).map (fun c => strlen (store_line c))).foldl max width)
      else .overrun := by
  induction fuel generalizing file lines height width with
  | zero => omega
  | succ fuel ih =>
    unfold load_loop reads
    cases hf : fgets MAX_LEN file with
    | none => simp [hh]
    | some cr =>
      obtain ⟨ch, rest⟩ := cr
      obtain ⟨h1, h2, _, _⟩ := fgets_some hf
      have hlen : rest.length < fuel := by
        have h3 := congrArg List.length h2
        have h4 : 0 < ch.length := List.length_pos.mpr h1
        simp only [List.length_append] at h3
        omega
      simp only [List.length_cons, List.map_cons, List.foldl_cons]
      by_cases hfull : MAX_LINES ≤ height
      · rw [if_pos hfull, if_neg (by omega)]
      · rw [if_neg hfull, ih rest _ _ _ hlen (by omega)]
        have hmax : (if strlen (store_line ch) > width then strlen (store_line ch) else width)
            = max width (strlen (store_line ch)) := by
          split_ifs with hgt
          · exact (max_eq_right (le_of_lt hgt)).symm
          · exact (max_eq_left (not_lt.mp hgt)).symm
        rw [hmax]
        by_cases hfit : height + 1 + (reads fuel rest).length ≤ MAX_LINES
        · rw [if_pos hfit, if_pos (by omega)]
          simp [Nat.add_assoc, Nat.add_comm 1]
        · rw [if_neg hfit, if_neg (by omega)]

theorem foldl_max_spec (l : List Nat) (w : Nat) :
    w ≤ l.foldl max w ∧ (∀ x ∈ l, x ≤ l.foldl max w) ∧ (l.foldl max w = w ∨ l.foldl max w ∈ l) := by
  induction l generalizing w with
  | nil => simp
  | cons a l ih =>
    obtain ⟨h1, h2, h3⟩ := ih (max w a)
    simp only [List.foldl_cons, List.mem_cons, forall_eq_or_imp]
    refine ⟨le_trans (le_max_left w a) h1, ⟨le_trans (le_max_right w a) h1, h2⟩, ?_⟩
    rcases h3 with h3 | h3
    · rw [h3]
      rcases le_total w a with hwa | hwa
      · right; left; exact max_eq_right hwa
      · left; exact max_eq_left hwa
    · right; right; exact h3

theorem forall₂_newline_removed (chunks : List (List Char))
    (h : ∀ chunk ∈ chunks, ∃ body, '\n' ∉ body ∧ (chunk = body ∨ chunk = body ++ ['\n'])) :
    List.Forall₂ newline_removed (chunks.map cstr) ((chunks.map store_line).map cstr) := by
  induction chunks with
  | nil => exact List.Forall₂.nil
  | cons c cs ih =>
    exact List.Forall₂.cons (newline_removed_store_line c (h c (List.mem_cons_self _ _)))
      (ih (fun x hx => h x (List.mem_cons_of_mem _ hx)))

/-- The model of `load_skull` never runs out of steps, and it writes outside
`skull_lines` exactly when more than `MAX_LINES` runs of characters are read. -/
theorem load_skull_total (file : List Char) :
    load_skull (some file) ≠ .no_fuel ∧
    (load_skull (some file) = .overrun ↔ MAX_LINES < (reads (file.length + 1) file).length) := by
  have h := load_loop_eq (file.length + 1) file [] 0 0 (Nat.lt_succ_self _) (Nat.zero_le _)
  simp only [load_skull]
  rw [h]
  split_ifs with hfit
  · exact ⟨by simp, by simp; omega⟩
  · exact ⟨by simp, by simp; omega⟩

/-! ## Facts about the C remainder of random values -/

theorem tmod_natCast (r n : Nat) : Int.tmod (r : Int) (n : Int) = ((r % n : Nat) : Int) := rfl

theorem tmod_neg_natCast (r n : Nat) :
    Int.tmod (-(r : Int)) (n : Int) = -((r % n : Nat) : Int) := by
  cases r with
  | zero => simp
  | succ m => rfl

theorem rand_speed_bounds (r : Nat) :
    1 ≤ 1 + Int.tmod (r : Int) 3 ∧ 1 + Int.tmod (r : Int) 3 ≤ 3 := by
  have h : Int.tmod (r : Int) 3 = ((r % 3 : Nat) : Int) := tmod_natCast r 3
  rw [h]
  omega

theorem rand_length_bounds (r : Nat) :
    8 ≤ 8 + Int.tmod (r : Int) 10 ∧ 8 + Int.tmod (r : Int) 10 ≤ 17 := by
  have h : Int.tmod (r : Int) 10 = ((r % 10 : Nat) : Int) := tmod_natCast r 10
  rw [h]
  omega

theorem rand_reset_bounds (r : Nat) :
    -19 ≤ Int.tmod (-(r : Int)) 20 ∧ Int.tmod (-(r : Int)) 20 ≤ 0 := by
  have h : Int.tmod (-(r : Int)) 20 = -((r % 20 : Nat) : Int) := tmod_neg_natCast r 20
  rw [h]
  omega

/-! ## Facts about one step of a stream -/

theorem stream_step_speed (sc : Scene) (x : Int) (rnd : Nat → Nat) (k : Nat) (s : Stream) :
    (stream_step sc x rnd k s).1.speed = s.speed ∧
    (stream_step sc x rnd k s).1.counter = s.counter := by
  simp only [stream_step]
  split_ifs <;> exact ⟨rfl, rfl⟩

/-- Without a reset the step moves the stream down by one row and keeps its
length. -/
theorem stream_step_advance (sc : Scene) (x : Int) (rnd : Nat → Nat) (k : Nat) (s : Stream)
    (h : ¬ (s.y + 1 - s.length > sc.max_y)) :
    (stream_step sc x rnd k s).1 = { s with y := s.y + 1 } := by
  simp only [stream_step]
  rw [if_neg h]

/-- With a reset the step takes the new position and the new length from the next
two random values. -/
theorem stream_step_restart (sc : Scene) (x : Int) (rnd : Nat → Nat) (k : Nat) (s : Stream)
    (h : s.y + 1 - s.length > sc.max_y) :
    ∃ j, k ≤ j ∧ (stream_step sc x rnd k s).2.2 = j + 2 ∧
      (stream_step sc x rnd k s).1 =
        { s with y := Int.tmod (-(rnd j : Int)) 20, length := 8 + Int.tmod (rnd (j + 1)) 10 } := by
  by_cases hd : 0 ≤ s.y ∧ s.y < sc.max_y ∧ ¬ in_skull sc s.y x
  · simp only [stream_step, if_pos h, if_pos hd]
    exact ⟨k + 1, Nat.le_succ k, rfl, rfl⟩
  · simp only [stream_step, if_pos h, if_neg hd]
    exact ⟨k, le_refl k, rfl, rfl⟩

/-- The writes of a step: the tail is cleared when it is on the screen, then the head
is drawn when it is on the screen and outside the placement rectangle. -/
theorem stream_step_ops (sc : Scene) (x : Int) (rnd : Nat → Nat) (k : Nat) (s : Stream) :
    (stream_step sc x rnd k s).2.1 =
      (if 0 ≤ s.y - s.length ∧ s.y - s.length < sc.max_y then [Draw.erase (s.y - s.length) x]
        else []) ++
      (if 0 ≤ s.y ∧ s.y < sc.max_y ∧ ¬ in_skull sc s.y x then
        [Draw.glyph s.y x sc.rain_color (Int.tmod (rnd k) num_matrix_chars)] else []) := by
  simp only [stream_step]
  by_cases h : s.y + 1 - s.length > sc.max_y
  · rw [if_pos h]
  · rw [if_neg h]

theorem stream_step_length (sc : Scene) (x : Int) (rnd : Nat → Nat) (k : Nat) (s : Stream)
    (h : 8 ≤ s.length ∧ s.length ≤ 17) :
    8 ≤ (stream_step sc x rnd k s).1.length ∧ (stream_step sc x rnd k s).1.length ≤ 17 := by
  by_cases hr : s.y + 1 - s.length > sc.max_y
  · obtain ⟨j, _, _, hj⟩ := stream_step_restart sc x rnd k s hr
    rw [hj]
    exact rand_length_bounds _
  · rw [stream_step_advance sc x rnd k s hr]
    exact h

/-- The glyphs drawn by a step lie outside the placement rectangle. -/
theorem stream_step_glyph (sc : Scene) (x : Int) (rnd : Nat → Nat) (k : Nat) (s : Stream)
    (row col color index : Int)
    (h : Draw.glyph row col color index ∈ (stream_step sc x rnd k s).2.1) :
    row = s.y ∧ col = x ∧ 0 ≤ row ∧ row < sc.max_y ∧ ¬ in_skull sc row col := by
  have hops := h
  rw [stream_step_ops] at hops
  rw [List.mem_append] at hops
  rcases hops with hc | hd
  · split_ifs at hc <;> simp at hc
  · split_ifs at hd with hdraw
    · simp only [List.mem_singleton, Draw.glyph.injEq] at hd
      obtain ⟨rfl, rfl, _, _⟩ := hd
      exact ⟨rfl, rfl, hdraw.1, hdraw.2.1, hdraw.2.2⟩
    · simp at hd

/-! ## Facts about one tick of a stream -/

/-- Inside the range of `int` nothing is cut off. -/
theorem wrap_int_eq (x : Int) (hlo : INT_MIN ≤ x) (hhi : x ≤ INT_MAX) : wrap_int x = x := by
  simp only [wrap_int, INT_MIN, INT_MAX] at *
  omega

/-- With a speed other than 0 the tick is defined: the step when the incremented
counter is a multiple of the speed, the bare increment of the counter otherwise. -/
theorem stream_tick_some (sc : Scene) (i : Nat) (rnd : Nat → Nat) (k : Nat) (s : Stream)
    (hs : s.speed ≠ 0) :
    stream_tick sc i rnd k s =
      some (if Int.tmod (wrap_int (s.counter + 1)) s.speed = 0 then
          stream_step sc ((i : Int) * spacing) rnd k
            { s with counter := wrap_int (s.counter + 1) }
        else ({ s with counter := wrap_int (s.counter + 1) }, [], k)) := by
  simp only [stream_tick, if_neg hs]
  split_ifs <;> rfl

theorem stream_tick_spec (sc : Scene) (i : Nat) (rnd : Nat → Nat) (k : Nat) (s : Stream)
    (hs : s.speed ≠ 0) :
    ∃ s1 ops k1, stream_tick sc i rnd k s = some (s1, ops, k1) ∧
      s1.counter = wrap_int (s.counter + 1) ∧ s1.speed = s.speed ∧
      (8 ≤ s.length ∧ s.length ≤ 17 → 8 ≤ s1.length ∧ s1.length ≤ 17) := by
  rw [stream_tick_some sc i rnd k s hs]
  split_ifs with hdiv
  · refine ⟨_, _, _, rfl, ?_, ?_, ?_⟩
    · exact (stream_step_speed sc _ rnd k _).2
    · exact (stream_step_speed sc _ rnd k _).1
    · intro hl
      exact stream_step_length sc _ rnd k _ hl
  · exact ⟨_, _, _, rfl, rfl, rfl, fun hl => hl⟩

theorem stream_tick_ok (sc : Scene) (i : Nat) (rnd : Nat → Nat) (k : Nat) (s : Stream)
    (hs : stream_ok s) :
    ∃ s1 ops k1, stream_tick sc i rnd k s = some (s1, ops, k1) ∧ stream_ok s1 ∧
      s1.speed = s.speed := by
  have hne : s.speed ≠ 0 := by
    have := hs.1
    omega
  obtain ⟨s1, ops, k1, h, _, hsp, hlen⟩ := stream_tick_spec sc i rnd k s hne
  refine ⟨s1, ops, k1, h, ?_, hsp⟩
  have hl := hlen ⟨hs.2.2.1, hs.2.2.2⟩
  exact ⟨hsp ▸ hs.1, hsp ▸ hs.2.1, hl.1, hl.2⟩

theorem gate_iff_dvd (c p : Nat) : Int.tmod ((c : Int) + 1) (p : Int) = 0 ↔ p ∣ c + 1 := by
  rw [← Int.dvd_iff_tmod_eq_zero]
  exact_mod_cast Int.natCast_dvd_natCast

/-- The number of steps among `n` ticks of a stream whose counter is `c` and whose
speed is `p`, as long as the counter stays in the range of `int`: the multiples of
`p` among `c + 1, ..., c + n`. -/
theorem run_stream_count (sc : Scene) (i : Nat) (rnd : Nat → Nat) :
    ∀ (n : Nat) (ks : Nat → Nat) (s : Stream) (c p : Nat),
      s.counter = c → s.speed = p → 1 ≤ p → ((c + n : Nat) : Int) ≤ INT_MAX →
      ∃ s1, run_stream sc i rnd n ks s = some (s1, (c + n) / p - c / p)
  | 0, _, s, c, p, _, _, _, _ => ⟨s, by simp [run_stream]⟩
  | n + 1, ks, s, c, p, hc, hp, hp1, hbound => by
    have hne : s.speed ≠ 0 := by rw [hp]; exact_mod_cast (by omega : p ≠ 0)
    obtain ⟨s1, ops, k1, htick, hcount, hspeed, _⟩ := stream_tick_spec sc i rnd (ks 0) s hne
    have hwrap : wrap_int (s.counter + 1) = ((c + 1 : Nat) : Int) := by
      rw [hc]
      have hb : ((c + (n + 1) : Nat) : Int) ≤ 2147483647 := hbound
      rw [wrap_int_eq _ (by simp only [INT_MIN]; omega) (by simp only [INT_MAX]; omega)]
      push_cast
      rfl
    have hc1 : s1.counter = ((c + 1 : Nat) : Int) := by rw [hcount, hwrap]
    have hbound1 : ((c + 1 + n : Nat) : Int) ≤ INT_MAX := by
      have hb : ((c + (n + 1) : Nat) : Int) ≤ 2147483647 := hbound
      simp only [INT_MAX]
      omega
    obtain ⟨s2, hrun⟩ :=
      run_stream_count sc i rnd n (fun t => ks (t + 1)) s1 (c + 1) p hc1 (hspeed.trans hp) hp1
        hbound1
    refine ⟨s2, ?_⟩
    simp only [run_stream, htick, hrun]
    have hgate : (Int.tmod (wrap_int (s.counter + 1)) s.speed = 0) ↔ p ∣ c + 1 := by
      rw [hwrap, hp]
      push_cast
      exact gate_iff_dvd c p
    have hsucc := Nat.succ_div c p
    have hmono : (c + 1) / p ≤ (c + 1 + n) / p := Nat.div_le_div_right (by omega)
    have hassoc : c + (n + 1) = c + 1 + n := by omega
    rw [hassoc]
    by_cases hd : p ∣ c + 1
    · rw [if_pos (hgate.mpr hd)]
      rw [if_pos hd] at hsucc
      congr 2
      omega
    · rw [if_neg (fun h => hd (hgate.mp h))]
      rw [if_neg hd] at hsucc
      congr 2
      omega

/-! ## Facts about the whole animation -/

theorem init_streams_ok (max_y : Int) (rnd : Nat → Nat) (hmax : max_y ≠ 0) :
    ∀ (n k : Nat), ∃ l k1, init_streams max_y rnd n k = some (l, k1) ∧ l.length = n ∧
      ∀ s ∈ l, stream_ok s ∧ s.counter = 0
  | 0, k => ⟨[], k, rfl, rfl, by simp⟩
  | n + 1, k => by
    obtain ⟨l, k1, h, hlen, hok⟩ := init_streams_ok max_y rnd hmax n (k + 3)
    refine ⟨{ y := Int.tmod (rnd k) max_y, speed := 1 + Int.tmod (rnd (k + 1)) 3,
              length := 8 + Int.tmod (rnd (k + 2)) 10, counter := 0 } :: l, k1,
      by simp only [init_streams, if_neg hmax, h], by simp [hlen], ?_⟩
    intro s hs
    rcases List.mem_cons.mp hs with rfl | hs
    · exact ⟨⟨(rand_speed_bounds _).1, (rand_speed_bounds _).2, (rand_length_bounds _).1,
        (rand_length_bounds _).2⟩, rfl⟩
    · exact hok s hs

theorem tick_streams_ok (sc : Scene) (rnd : Nat → Nat) :
    ∀ (l : List Stream) (i k : Nat), (∀ s ∈ l, stream_ok s) →
      ∃ l1 ops k1, tick_streams sc rnd i l k = some (l1, ops, k1) ∧
        (∀ s ∈ l1, stream_ok s) ∧ l1.map Stream.speed = l.map Stream.speed
  | [], i, k, _ => ⟨[], [], k, rfl, by simp, rfl⟩
  | s :: rest, i, k, h => by
    obtain ⟨s1, ops, k1, hs1, hok1, hsp⟩ :=
      stream_tick_ok sc i rnd k s (h s (List.mem_cons_self _ _))
    obtain ⟨l1, ops1, k2, hl1, hokl, hspl⟩ :=
      tick_streams_ok sc rnd rest (i + 1) k1 (fun t ht => h t (List.mem_cons_of_mem _ ht))
    refine ⟨s1 :: l1, ops ++ ops1, k2, by simp only [tick_streams, hs1, hl1], ?_, ?_⟩
    · intro t ht
      rcases List.mem_cons.mp ht with rfl | ht
      · exact hok1
      · exact hokl t ht
    · simp [hsp, hspl]

theorem frame_scene (rnd : Nat → Nat) (a a1 : Anim) (ops : List Draw)
    (h : frame rnd a = some (a1, ops)) : a1.scene = a.scene := by
  unfold frame at h
  cases ht : tick_streams a.scene rnd 0 a.streams a.next with
  | none => simp [ht] at h
  | some r =>
    obtain ⟨streams, ops1, k⟩ := r
    simp only [ht, Option.some.injEq, Prod.mk.injEq] at h
    rw [← h.1]

theorem run_scene (rnd : Nat → Nat) :
    ∀ (n : Nat) (a a1 : Anim), run rnd n a = some a1 → a1.scene = a.scene
  | 0, a, a1, h => by
    simp only [run, Option.some.injEq] at h
    rw [h]
  | n + 1, a, a1, h => by
    unfold run at h
    cases hf : frame rnd a with
    | none => simp [hf] at h
    | some r =>
      obtain ⟨a2, ops⟩ := r
      simp only [hf] at h
      rw [run_scene rnd n a2 a1 h, frame_scene rnd a a2 ops hf]

theorem run_ok (rnd : Nat → Nat) :
    ∀ (n : Nat) (a : Anim), (∀ s ∈ a.streams, stream_ok s) →
      ∃ a1, run rnd n a = some a1 ∧ (∀ s ∈ a1.streams, stream_ok s) ∧
        a1.streams.map Stream.speed = a.streams.map Stream.speed
  | 0, a, h => ⟨a, rfl, h, rfl⟩
  | n + 1, a, h => by
    obtain ⟨l1, ops, k1, ht, hok, hsp⟩ := tick_streams_ok a.scene rnd a.streams 0 a.next h
    obtain ⟨a1, hrun, hok1, hsp1⟩ :=
      run_ok rnd n { a with streams := l1, next := k1 } hok
    exact ⟨a1, by simp only [run, frame, ht, hrun], hok1, hsp1.trans hsp⟩

/-- Every glyph drawn in a tick of the animation lies outside the placement
rectangle. -/
theorem tick_streams_glyph (sc : Scene) (rnd : Nat → Nat) :
    ∀ (l : List Stream) (i k : Nat) (l1 : List Stream) (ops : List Draw) (k1 : Nat),
      tick_streams sc rnd i l k = some (l1, ops, k1) →
      ∀ row col color index, Draw.glyph row col color index ∈ ops → ¬ in_skull sc row col
  | [], i, k, l1, ops, k1, h => by
    simp only [tick_streams, Option.some.injEq, Prod.mk.injEq] at h
    intro row col color index hmem
    rw [← h.2.1] at hmem
    simp at hmem
  | s :: rest, i, k, l1, ops, k1, h => by
    unfold tick_streams at h
    cases hs : stream_tick sc i rnd k s with
    | none => simp [hs] at h
    | some r =>
      obtain ⟨s1, ops0, k0⟩ := r
      cases hr : tick_streams sc rnd (i + 1) rest k0 with
      | none => simp [hs, hr] at h
      | some r1 =>
        obtain ⟨rest1, ops1, k2⟩ := r1
        simp only [hs, hr, Option.some.injEq, Prod.mk.injEq] at h
        intro row col color index hmem
        rw [← h.2.1, List.mem_append] at hmem
        rcases hmem with hmem | hmem
        · simp only [stream_tick] at hs
          split_ifs at hs with h0 hdiv
          · simp only [Option.some.injEq] at hs
            have hops : ops0 = (stream_step sc ((i : Int) * spacing) rnd k
                { s with counter := wrap_int (s.counter + 1) }).2.1 := by rw [hs]
            rw [hops] at hmem
            exact (stream_step_glyph sc _ rnd k _ row col color index hmem).2.2.2.2
          · simp only [Option.some.injEq, Prod.mk.injEq] at hs
            rw [← hs.2.1] at hmem
            simp at hmem
        · exact tick_streams_glyph sc rnd rest (i + 1) k0 rest1 ops1 k2 hr row col color index hmem

/-! ## The claims

The evaluations of the program on whole files and whole frames below need a deeper
recursion than the default. -/

set_option maxRecDepth 100000

/-! ## C1: the color resolver -/

/-- C2, as stated, fails: in `cskull -r -h -s red` the argument `-h` is taken as the
value of `-r`, so a help flag is among the arguments and yet `main` goes on with
rain color 1 and art color 2 instead of printing the usage text. -/
theorem main_help_anywhere_counterexample :
    (∃ a ∈ (["cskull", "-r", "-h", "-s", "red"].map String.toList).tail, is_help a) ∧
    main_startup (["cskull", "-r", "-h", "-s", "red"].map String.toList) = .proceed 1 2 ∧
    main_startup (["cskull", "-r", "-h", "-s", "red"].map String.toList) ≠ .usage 0 := by
  refine ⟨⟨"-h".toList, by decide, by decide⟩, by decide, by decide⟩

/-- C2, amended. When the argument vector has fewer than 4 arguments after the
program name, or holds `-h` or `--help` at a place that does not count as the value
of a flag, `main` prints the usage text and returns 0 without calling `load_skull`
or `initscr`.  An argument counts as the value of a flag when the argument before
it is `-r` or `-s` and does not itself count as a value. -/
theorem main_help_usage (argv : List CStr)
    (h : argv.tail.length < 4 ∨
      ∃ k a, argv.tail[k]? = some a ∧ is_help a ∧ read_as_value argv.tail k = false) :
    main_startup argv = .usage 0 := by
  unfold main_startup
  split_ifs with hlen
  · rfl
  · rcases h with h | ⟨k, a, hk, ha, hv⟩
    · rw [List.length_tail] at h
      omega
    · rw [parse_args_help_flag argv.tail none none k a hk ha hv]

/-- C2, amended, at concrete inputs: three arguments only; `--help` after the two
color flags; `-h` after a `-r` that itself counts as the value of the first `-r`.
In `-r -h -s red` the `-h` at place 1 counts as a value. -/
theorem main_help_usage_witness :
    main_startup (["cskull", "-r", "green", "-s"].map String.toList) = .usage 0 ∧
    main_startup (["cskull", "-r", "green", "-s", "red", "--help"].map String.toList)
      = .usage 0 ∧
    main_startup (["cskull", "-r", "-r", "-h", "x", "y"].map String.toList) = .usage 0 ∧
    read_as_value (["-r", "-h", "-s", "red"].map String.toList) 1 = true :=
  ⟨main_help_usage _ (Or.inl (by decide)),
   main_help_usage _ (Or.inr ⟨4, "--help".toList, rfl, Or.inr rfl, by decide⟩),
   main_help_usage _ (Or.inr ⟨2, "-h".toList, rfl, Or.inl rfl, by decide⟩),
   by decide⟩

/-! ## C7: the values of `-r` and `-s` -/

/-- C7, as stated, fails: `cskull -r green -r blue -s red` has six arguments, no help
flag, gives `-r green` and `-s red`, and yet `main` goes on with the rain color of
`blue` (slot 3), not with `color_from_name("green")` (slot 1): the last `-r` wins. -/
theorem main_flag_values_counterexample :
    4 ≤ (["cskull", "-r", "green", "-r", "blue", "-s", "red"].map String.toList).tail.length ∧
    (∀ a ∈ (["cskull", "-r", "green", "-r", "blue", "-s", "red"].map String.toList).tail,
      ¬ is_help a) ∧
    gives "-r".toList "green".toList
      (["cskull", "-r", "green", "-r", "blue", "-s", "red"].map String.toList).tail ∧
    gives "-s".toList "red".toList
      (["cskull", "-r", "green", "-r", "blue", "-s", "red"].map String.toList).tail ∧
    main_startup (["cskull", "-r", "green", "-r", "blue", "-s", "red"].map String.toList)
      = .proceed 3 2 ∧
    main_startup (["cskull", "-r", "green", "-r", "blue", "-s", "red"].map String.toList)
      ≠ .proceed (color_from_name (some "green".toList)) (color_from_name (some "red".toList)) := by
  refine ⟨by decide, by decide, by decide, by decide, by decide, by decide⟩

/-- C7, amended. (1) When no occurrence of `-r` is followed by an argument, or no
occurrence of `-s` is, `main` prints the usage text and returns 0 without loading
the asset. (2) When the arguments are `-r A` and `-s B`, once each and in either
order, with only unrecognised arguments (none of `-r`, `-s`, `-h`, `--help`)
before, between and after them, `main` goes on with rain color
`color_from_name(A)` and art color `color_from_name(B)`. -/
theorem main_flag_values (argv : List CStr) :
    (((∀ v, ¬ gives "-r".toList v argv.tail) ∨ (∀ v, ¬ gives "-s".toList v argv.tail)) →
      main_startup argv = .usage 0) ∧
    (∀ pre mid post A B, (∀ x ∈ pre ++ mid ++ post, unrecognised x) →
      (argv.tail = pre ++ "-r".toList :: A :: (mid ++ "-s".toList :: B :: post) ∨
       argv.tail = pre ++ "-s".toList :: B :: (mid ++ "-r".toList :: A :: post)) →
      main_startup argv = .proceed (color_from_name (some A)) (color_from_name (some B))) := by
  constructor
  · intro h
    unfold main_startup
    split_ifs with hlen
    · rfl
    · rcases h with h | h
      · rcases parse_args_rain_unset argv.tail none none h with hp | ⟨s', hp⟩ <;> rw [hp]
        simp
      · rcases parse_args_skull_unset argv.tail none none h with hp | ⟨r', hp⟩ <;> rw [hp]
        simp
  · intro pre mid post A B hun hargs
    have hpre : ∀ x ∈ pre, unrecognised x := fun x hx => hun x (by simp [hx])
    have hmid : ∀ x ∈ mid, unrecognised x := fun x hx => hun x (by simp [hx])
    have hpost : ∀ x ∈ post, unrecognised x := fun x hx => hun x (by simp [hx])
    have hend : ∀ r s, parse_args post r s = .names r s := by
      intro r s
      have := parse_args_skip post [] r s hpost
      rw [List.append_nil] at this
      rw [this]
      rfl
    have hlen : ¬ ((argv.length : Int) < 5) := by
      have h4 : 4 ≤ argv.tail.length := by
        rcases hargs with h | h <;> rw [h] <;> simp <;> omega
      rw [List.length_tail] at h4
      omega
    unfold main_startup
    rw [if_neg hlen]
    rcases hargs with h | h
    · rw [h, parse_args_skip pre _ _ _ hpre, parse_args_pair, if_pos rfl,
        parse_args_skip mid _ _ _ hmid, parse_args_pair, if_neg (by decide), if_pos rfl, hend]
      simp
    · rw [h, parse_args_skip pre _ _ _ hpre, parse_args_pair, if_neg (by decide), if_pos rfl,
        parse_args_skip mid _ _ _ hmid, parse_args_pair, if_pos rfl, hend]
      simp

/-- C7, amended, at concrete inputs: `-s` stands last and has no value; the two
flags in reverse order among unrecognised arguments. -/
theorem main_flag_values_witness :
    main_startup (["cskull", "-r", "green", "extra", "-s"].map String.toList) = .usage 0 ∧
    main_startup (["cskull", "-v", "-s", "Cyan", "x", "y", "-r", "RED", "z"].map String.toList)
      = .proceed 2 6 :=
  ⟨(main_flag_values _).1 (Or.inr (by
      intro v hv
      simp only [gives, List.map_cons, List.map_nil, List.tail_cons, List.zip_cons_cons,
        List.zip_nil_right, List.mem_cons, Prod.mk.injEq, List.not_mem_nil, or_false] at hv
      rcases hv with ⟨h, _⟩ | ⟨h, _⟩ | ⟨h, _⟩ <;> exact absurd h (by decide))),
   (main_flag_values _).2 ["-v".toList] ["x".toList, "y".toList] ["z".toList]
      "RED".toList "Cyan".toList (by decide) (Or.inr rfl)⟩

/-! ## C5: the recorded size of the art and the stored rows -/

/-- C5, as stated, fails. For the file `a`, NUL, `b`, newline the one run of
characters read is the whole file, and the row stored for it is the string `a`:
the text is cut at its terminator character, so more than the newline is gone.
And for a file of 201 newlines the load does not end with a height and a width at
all: it writes outside `skull_lines`. -/
theorem load_skull_rows_counterexample :
    reads 5 ['a', NUL, 'b', '\n'] = [['a', NUL, 'b', '\n']] ∧
    load_skull (some ['a', NUL, 'b', '\n']) = .done [['a', NUL, 'b', '\n', NUL]] 1 1 ∧
    cstr ['a', NUL, 'b', '\n', NUL] = ['a'] ∧
    ¬ newline_removed ['a', NUL, 'b', '\n'] ['a'] ∧
    load_skull (some (List.replicate 201 '\n')) = .overrun := by
  refine ⟨by decide, by decide, by decide, by decide, by decide⟩

/-- C5, amended. For every file content that `fgets` reads as at most `MAX_LINES`
runs of characters (the runs are the file, cut into pieces), the load ends at end
of file with `skull_height` equal to the number of stored rows, which is the number
of runs, and `skull_width` equal to the greatest length of a stored row (0 when
there is none); each stored row is the string `fgets` read for it, that is the run
cut at its first terminator character if it has one, with only the newline removed
(so blanks before the newline are kept); for a file without terminator characters
that string is the whole run. -/
theorem load_skull_dimensions (file : List Char)
    (hfit : (reads (file.length + 1) file).length ≤ MAX_LINES) :
    (reads (file.length + 1) file).flatten = file ∧
    ∃ lines h w, load_skull (some file) = .done lines h w ∧
      h = lines.length ∧
      h = (reads (file.length + 1) file).length ∧
      (∀ row ∈ lines, strlen row ≤ w) ∧
      (lines = [] → w = 0) ∧
      (lines ≠ [] → ∃ row ∈ lines, strlen row = w) ∧
      List.Forall₂ newline_removed ((reads (file.length + 1) file).map cstr)
        (lines.map cstr) ∧
      (NUL ∉ file →
        List.Forall₂ newline_removed (reads (file.length + 1) file) (lines.map cstr)) := by
  have hloop := load_loop_eq (file.length + 1) file [] 0 0 (Nat.lt_succ_self _) (Nat.zero_le _)
  simp only [Nat.zero_add, List.nil_append] at hloop
  rw [if_pos hfit] at hloop
  refine ⟨reads_flatten _ file (Nat.lt_succ_self _), _, _, _, hloop, ?_⟩
  obtain ⟨_, hub, hatt⟩ :=
    foldl_max_spec ((reads (file.length + 1) file).map (fun c => strlen (store_line c))) 0
  have hshape := fun chunk hc => (reads_chunk (file.length + 1) file chunk hc).2.2.1
  have hrows := forall₂_newline_removed (reads (file.length + 1) file) hshape
  refine ⟨by simp, rfl, ?_, ?_, ?_, hrows, ?_⟩
  · intro row hrow
    obtain ⟨chunk, hchunk, rfl⟩ := List.mem_map.mp hrow
    exact hub _ (List.mem_map.mpr ⟨chunk, hchunk, rfl⟩)
  · intro hnil
    rw [List.map_eq_nil_iff] at hnil
    simp [hnil]
  · intro hne
    rcases hatt with h0 | hmem
    · obtain ⟨row, hrow⟩ := List.exists_mem_of_ne_nil _ hne
      refine ⟨row, hrow, ?_⟩
      obtain ⟨chunk, hchunk, rfl⟩ := List.mem_map.mp hrow
      have := hub _ (List.mem_map.mpr ⟨chunk, hchunk, rfl⟩)
      omega
    · obtain ⟨chunk, hchunk, heq⟩ := List.mem_map.mp hmem
      exact ⟨store_line chunk, List.mem_map.mpr ⟨chunk, hchunk, rfl⟩, heq⟩
  · intro hnul
    have hid : (reads (file.length + 1) file).map cstr = reads (file.length + 1) file := by
      conv_rhs => rw [← List.map_id (reads (file.length + 1) file)]
      apply List.map_congr_left
      intro chunk hc
      have hsub := (reads_chunk (file.length + 1) file chunk hc).2.2.2
      exact cstr_eq_self chunk (fun h => hnul (hsub _ h))
    rw [hid] at hrows
    exact hrows

/-- C5, amended, at a concrete file of two lines, the first with two blanks before
its newline, the second without a newline: the load ends with height 2 and width
4. -/
theorem load_skull_dimensions_witness :
    ("ab  \nxyz".toList = "ab  \n".toList ++ "xyz".toList) ∧
    ∃ lines h w, load_skull (some "ab  \nxyz".toList) = .done lines h w ∧
      h = lines.length ∧ h = 2 ∧ (∀ row ∈ lines, strlen row ≤ w) :=
  ⟨by decide,
   match (load_skull_dimensions "ab  \nxyz".toList (by decide)).2 with
   | ⟨lines, h, w, hdone, h1, h2, h3, _⟩ => ⟨lines, h, w, hdone, h1, h2, h3⟩⟩

/-! ## C6: the bounds of `load_skull` -/

/-- A load that ends has stayed inside `skull_lines`: at most `MAX_LINES` rows, each
at most `MAX_LEN - 1` characters long, and the number of rows is the number of
runs of characters `fgets` read. -/
theorem load_skull_done_bounds (file : List Char) (lines : List (List Char)) (h w : Nat)
    (hdone : load_skull (some file) = .done lines h w) :
    h ≤ MAX_LINES ∧ w ≤ MAX_LEN - 1 ∧ (∀ row ∈ lines, strlen row ≤ MAX_LEN - 1) ∧
    h = (reads (file.length + 1) file).length := by
  have hloop := load_loop_eq (file.length + 1) file [] 0 0 (Nat.lt_succ_self _) (Nat.zero_le _)
  simp only [load_skull] at hdone
  rw [hloop] at hdone
  simp only [Nat.zero_add, List.nil_append] at hdone
  split_ifs at hdone with hfit
  simp only [Loaded.done.injEq] at hdone
  obtain ⟨rfl, rfl, rfl⟩ := hdone
  obtain ⟨_, _, hatt⟩ :=
    foldl_max_spec ((reads (file.length + 1) file).map (fun c => strlen (store_line c))) 0
  have hrow : ∀ row ∈ (reads (file.length + 1) file).map store_line, strlen row ≤ MAX_LEN - 1 := by
    intro row hrow
    obtain ⟨chunk, hchunk, rfl⟩ := List.mem_map.mp hrow
    exact le_trans (strlen_store_line_le chunk) (reads_chunk _ _ chunk hchunk).2.1
  refine ⟨hfit, ?_, hrow, rfl⟩
  rcases hatt with h0 | hmem
  · rw [h0]; exact Nat.zero_le _
  · obtain ⟨chunk, hchunk, heq⟩ := List.mem_map.mp hmem
    rw [← heq]
    exact hrow _ (List.mem_map.mpr ⟨chunk, hchunk, rfl⟩)

/-- C6 fails on the code. A file of 201 newlines makes the loop read a line into
`skull_lines[200]`, outside the array; and a file of one line of 250 characters is
stored as two rows of 199 and 51 characters, not as one row cut to 199. -/
theorem load_skull_unbounded :
    load_skull (some (List.replicate 201 '\n')) = .overrun ∧
    load_skull (some (List.replicate 250 'x' ++ ['\n'])) =
      .done [List.replicate 199 'x' ++ [NUL], List.replicate 51 'x' ++ [NUL, NUL]] 2 199 := by
  constructor <;> decide

/-! ## C3: the rain and the placement rectangle -/

/-- Every glyph of the table is two columns wide. -/
theorem matrix_chars_wide : ∀ c ∈ matrix_chars, wcwidth c = 2 := by decide

/-- A head draw covers the cell it is placed at and the cell to its right. -/
theorem head_cells_glyph (row col color index : Int)
    (h0 : 0 ≤ index) (h1 : index < num_matrix_chars) :
    head_cells (Draw.glyph row col color index) = [(row, col), (row, col + 1)] := by
  have hw : wcwidth (matrix_chars.getD index.toNat ' ') = 2 := by
    have hlt : index.toNat < matrix_chars.length := by
      have : index < (matrix_chars.length : Int) := h1
      omega
    rw [List.getD_eq_getElem _ _ hlt]
    exact matrix_chars_wide _ (List.getElem_mem _)
  simp only [head_cells, hw]
  simp [List.range_succ]

/-- The cell a head draw is placed at lies outside the placement rectangle: the test
`in_skull` of lines 156-158 guards the start cell of every `mvaddwstr`. -/
theorem stream_step_start_outside (sc : Scene) (i : Nat) (rnd : Nat → Nat) (k : Nat)
    (s : Stream) (row col color index : Int)
    (h : Draw.glyph row col color index ∈
      (stream_step sc ((i : Int) * spacing) rnd k s).2.1) :
    ¬ (sc.skull_y ≤ row ∧ row < sc.skull_y + sc.skull_height ∧
       sc.skull_x ≤ col ∧ col < sc.skull_x + sc.skull_width) :=
  (stream_step_glyph sc _ rnd k s row col color index h).2.2.2.2

/-- On a terminal of 24 rows and 80 columns with the placement rectangle at row 7 and
column 21 (10 rows, 38 columns), whatever the random source returns: the tick of
stream 10 (column 20) at row 12 with speed 1 draws a head whose cells include
(12, 21), a cell of the rectangle. -/
theorem stream_tick_covers_skull (lines : List (List Char)) (rnd : Nat → Nat) (k : Nat)
    (len : Int) :
    ∃ s1 ops k1 index,
      stream_tick ⟨24, 80, 7, 21, 10, 38, lines, 1, 2⟩ 10 rnd k ⟨12, 1, len, 0⟩
        = some (s1, ops, k1) ∧
      Draw.glyph 12 20 1 index ∈ ops ∧
      (12, 21) ∈ head_cells (Draw.glyph 12 20 1 index) ∧
      in_skull ⟨24, 80, 7, 21, 10, 38, lines, 1, 2⟩ 12 21 := by
  have hidx : 0 ≤ Int.tmod (rnd k : Int) num_matrix_chars ∧
      Int.tmod (rnd k : Int) num_matrix_chars < num_matrix_chars := by
    have h : Int.tmod (rnd k : Int) num_matrix_chars = ((rnd k % 18 : Nat) : Int) :=
      tmod_natCast (rnd k) 18
    have h18 : num_matrix_chars = 18 := rfl
    rw [h, h18]
    omega
  have hin : in_skull ⟨24, 80, 7, 21, 10, 38, lines, 1, 2⟩ 12 21 := by
    simp only [in_skull]
    omega
  have hout : ¬ in_skull ⟨24, 80, 7, 21, 10, 38, lines, 1, 2⟩ 12 ((10 : Nat) * spacing) := by
    simp only [in_skull, spacing]
    omega
  have hne : (Stream.mk 12 1 len 0).speed ≠ 0 := by
    show (1 : Int) ≠ 0
    decide
  have hgate : Int.tmod (wrap_int ((Stream.mk 12 1 len 0).counter + 1))
      (Stream.mk 12 1 len 0).speed = 0 := by
    show Int.tmod (wrap_int (0 + 1)) 1 = 0
    decide
  have htick := stream_tick_some ⟨24, 80, 7, 21, 10, 38, lines, 1, 2⟩ 10 rnd k
    ⟨12, 1, len, 0⟩ hne
  rw [if_pos hgate] at htick
  have hops := stream_step_ops ⟨24, 80, 7, 21, 10, 38, lines, 1, 2⟩ ((10 : Nat) * spacing)
    rnd k { (Stream.mk 12 1 len 0) with counter := wrap_int ((Stream.mk 12 1 len 0).counter + 1) }
  generalize stream_step ⟨24, 80, 7, 21, 10, 38, lines, 1, 2⟩ ((10 : Nat) * spacing) rnd k
    { (Stream.mk 12 1 len 0) with
      counter := wrap_int ((Stream.mk 12 1 len 0).counter + 1) } = r at htick hops
  refine ⟨r.1, r.2.1, r.2.2, Int.tmod (rnd k : Int) num_matrix_chars, htick, ?_, ?_, hin⟩
  · rw [hops]
    apply List.mem_append_right
    have hdraw : (0 : Int) ≤ 12 ∧ (12 : Int) < 24 ∧
        ¬ in_skull ⟨24, 80, 7, 21, 10, 38, lines, 1, 2⟩ 12 ((10 : Nat) * spacing) :=
      ⟨by decide, by decide, hout⟩
    rw [if_pos hdraw]
    simp [spacing]
  · rw [head_cells_glyph 12 20 1 _ hidx.1 hidx.2]
    simp

/-- C3 fails on the code. On a terminal of 24 rows and 80 columns with an art of 10
rows and 38 columns the placement rectangle starts at row 7 and column 21.  When
`rand()` returns 12 at every call, stream 10 (column 20) starts at row 12 with
speed 1, and the first tick draws its head at cell (12, 20): the guard looks at
column 20 only, the glyph is two columns wide, and so the head draw writes cell
(12, 21), inside the rectangle. -/
theorem stream_glyph_covers_skull :
    center_skull 24 80 10 38 = (7, 21) ∧
    ∃ a0 a1 ops,
      init_anim 24 80 (List.replicate 10 (List.replicate 38 '#' ++ [NUL])) 10 38 1 2
        (fun _ => 12) = some a0 ∧
      frame (fun _ => 12) a0 = some (a1, ops) ∧
      Draw.glyph 12 20 1 12 ∈ ops ∧
      (12, 21) ∈ head_cells (Draw.glyph 12 20 1 12) ∧
      in_skull a0.scene 12 21 := by
  refine ⟨by decide, _, _, _, rfl, rfl, by decide, by decide, by decide⟩

/-- The same for a whole tick of the animation: whatever the streams, no glyph of the
frame has its start cell inside the placement rectangle. -/
theorem frame_glyphs_outside (rnd : Nat → Nat) (a a1 : Anim) (ops : List Draw)
    (h : frame rnd a = some (a1, ops)) (row col color index : Int)
    (hmem : Draw.glyph row col color index ∈ ops) : ¬ in_skull a.scene row col := by
  unfold frame at h
  cases ht : tick_streams a.scene rnd 0 a.streams a.next with
  | none => simp [ht] at h
  | some r =>
    obtain ⟨streams, ops1, k⟩ := r
    simp only [ht, Option.some.injEq, Prod.mk.injEq] at h
    rw [← h.2, List.mem_append] at hmem
    rcases hmem with hmem | hmem
    · exact tick_streams_glyph a.scene rnd a.streams 0 a.next streams ops1 k ht
        row col color index hmem
    · simp [draw_skull] at hmem

/-! ## C4: the reset of a stream -/

/-- C4, as stated, fails: on a terminal of 10 rows (rows 0..9) a stream at row 17 of
length 8 has, after the step, its tail at row 10, beyond the last visible row, and
yet the step does not reset it: the stream is at row 18 with length 8. -/
theorem stream_reset_counterexample :
    ((17 : Int) + 1) - 8 > 10 - 1 ∧
    (stream_step ⟨10, 8, 4, 2, 3, 4, [], 1, 2⟩ 0 (fun _ => 0) 0 ⟨17, 1, 8, 5⟩).1
      = ⟨18, 1, 8, 5⟩ ∧
    ¬ ((stream_step ⟨10, 8, 4, 2, 3, 4, [], 1, 2⟩ 0 (fun _ => 0) 0 ⟨17, 1, 8, 5⟩).1.y ≤ 0) := by
  refine ⟨by decide, by decide, by decide⟩

/-- C4, amended. For every stream whose tail position `y - length`, taken after the
step has moved the stream down by one row, is greater than `max_y` (at least one
row beyond the first row below the screen), the step resets the stream: the new
position is `-(r % 20)`, in `-19..0`, and the new length is `8 + r' % 10`, in
`8..17`, for the next two values `r`, `r'` of the random source, whatever they
are; speed and counter are left as they were. -/
theorem stream_step_reset (sc : Scene) (x : Int) (rnd : Nat → Nat) (k : Nat) (s : Stream)
    (h : s.y + 1 - s.length > sc.max_y) :
    -19 ≤ (stream_step sc x rnd k s).1.y ∧ (stream_step sc x rnd k s).1.y ≤ 0 ∧
    8 ≤ (stream_step sc x rnd k s).1.length ∧ (stream_step sc x rnd k s).1.length ≤ 17 ∧
    (stream_step sc x rnd k s).1.speed = s.speed ∧
    (stream_step sc x rnd k s).1.counter = s.counter ∧
    ∃ j, k ≤ j ∧ (stream_step sc x rnd k s).2.2 = j + 2 ∧
      (stream_step sc x rnd k s).1.y = -((rnd j % 20 : Nat) : Int) ∧
      (stream_step sc x rnd k s).1.length = 8 + ((rnd (j + 1) % 10 : Nat) : Int) := by
  obtain ⟨j, hkj, hnext, hj⟩ := stream_step_restart sc x rnd k s h
  rw [hj]
  refine ⟨(rand_reset_bounds _).1, (rand_reset_bounds _).2, (rand_length_bounds _).1,
    (rand_length_bounds _).2, rfl, rfl, j, hkj, hnext, ?_, ?_⟩
  · exact tmod_neg_natCast (rnd j) 20
  · show 8 + Int.tmod (rnd (j + 1) : Int) 10 = 8 + ((rnd (j + 1) % 10 : Nat) : Int)
    rw [show Int.tmod (rnd (j + 1) : Int) 10 = ((rnd (j + 1) % 10 : Nat) : Int) from
      tmod_natCast _ 10]

/-- C4, amended, at a concrete step: on a terminal of 10 rows the stream at row 18
of length 8 (tail at row 11 after the move) is reset to row -5 with length 13 when
the random source returns 45 and then 45. -/
theorem stream_step_reset_witness :
    (stream_step ⟨10, 8, 4, 2, 3, 4, [], 1, 2⟩ 0 (fun _ => 45) 0 ⟨18, 1, 8, 5⟩).1
      = ⟨-5, 1, 13, 5⟩ ∧
    -19 ≤ (stream_step ⟨10, 8, 4, 2, 3, 4, [], 1, 2⟩ 0 (fun _ => 45) 0 ⟨18, 1, 8, 5⟩).1.y :=
  ⟨by decide,
   (stream_step_reset ⟨10, 8, 4, 2, 3, 4, [], 1, 2⟩ 0 (fun _ => 45) 0 ⟨18, 1, 8, 5⟩
     (by decide)).1⟩

/-! ## C8: the gating of the stream steps -/

/-- C8, as stated, fails: the counter is an `int` that is incremented on every tick
and never set back.  For a stream of speed 1 whose counter is `INT_MAX` the tick
leaves the counter at `INT_MIN`, not at the counter plus 1. -/
theorem stream_tick_counter_counterexample :
    (1 : Int) ≤ (Stream.mk 0 1 8 2147483647).speed ∧
    stream_tick ⟨10, 8, 4, 2, 3, 4, [], 1, 2⟩ 0 (fun _ => 0) 0 ⟨0, 1, 8, 2147483647⟩
      = some (⟨1, 1, 8, -2147483648⟩, [Draw.glyph 0 0 1 0], 1) ∧
    (-2147483648 : Int) ≠ (Stream.mk 0 1 8 2147483647).counter + 1 := by
  refine ⟨by decide, by decide, by decide⟩

/-- C8, amended. For every stream with speed at least 1 whose counter is an `int`
below `INT_MAX`, a tick increments the counter by exactly 1 and leaves the speed
alone; when the incremented counter is not a multiple of the speed the stream is
otherwise unchanged, nothing is drawn or erased and no random value is used; when
it is a multiple the step is taken; so (on a terminal with `max_y >= 0`) position
and length change exactly on the ticks whose incremented counter is a multiple of
the speed.  Starting from counter 0 the stream takes exactly `n / speed` steps in
`n` ticks for every `n` up to `INT_MAX`, and of two streams the one with the lower
speed value never takes fewer in these `n` ticks. -/
theorem stream_tick_gating (sc : Scene) (i : Nat) (rnd : Nat → Nat) (k : Nat) (s : Stream)
    (hs : 1 ≤ s.speed) (hlo : INT_MIN ≤ s.counter) (hhi : s.counter < INT_MAX) :
    (∃ s1 ops k1, stream_tick sc i rnd k s = some (s1, ops, k1) ∧
      s1.counter = s.counter + 1 ∧ s1.speed = s.speed ∧
      (¬ s.speed ∣ s.counter + 1 →
        s1 = { s with counter := s.counter + 1 } ∧ ops = [] ∧ k1 = k) ∧
      (s.speed ∣ s.counter + 1 →
        (s1, ops, k1) =
          stream_step sc ((i : Int) * spacing) rnd k { s with counter := s.counter + 1 }) ∧
      (0 ≤ sc.max_y →
        ((s1.y, s1.length) ≠ (s.y, s.length) ↔ s.speed ∣ s.counter + 1))) ∧
    (s.counter = 0 → ∀ (n : Nat) (ks : Nat → Nat), (n : Int) ≤ INT_MAX →
      ∃ s1, run_stream sc i rnd n ks s = some (s1, n / s.speed.toNat)) ∧
    (s.counter = 0 → ∀ (t : Stream) (j n : Nat) (ks kt : Nat → Nat), (n : Int) ≤ INT_MAX →
      t.counter = 0 → s.speed ≤ t.speed →
      ∃ s1 t1 c d, run_stream sc i rnd n ks s = some (s1, c) ∧
        run_stream sc j rnd n kt t = some (t1, d) ∧ d ≤ c) := by
  have hne : s.speed ≠ 0 := by omega
  have hwrap : wrap_int (s.counter + 1) = s.counter + 1 := by
    simp only [INT_MIN, INT_MAX] at hlo hhi
    exact wrap_int_eq _ (by simp only [INT_MIN]; omega) (by simp only [INT_MAX]; omega)
  have hcount : ∀ (u : Stream) (j n : Nat) (ku : Nat → Nat), u.counter = 0 → 1 ≤ u.speed →
      (n : Int) ≤ INT_MAX →
      ∃ u1, run_stream sc j rnd n ku u = some (u1, n / u.speed.toNat) := by
    intro u j n ku hc hu hn
    obtain ⟨u1, h⟩ := run_stream_count sc j rnd n ku u 0 u.speed.toNat (by simp [hc])
      (by rw [Int.toNat_of_nonneg (by omega)]) (by omega) (by simpa using hn)
    exact ⟨u1, by simpa using h⟩
  refine ⟨?_, fun hc n ks hn => hcount s i n ks hc hs hn, ?_⟩
  · rw [stream_tick_some sc i rnd k s hne, hwrap]
    by_cases hdiv : s.speed ∣ s.counter + 1
    · have hgate : Int.tmod (s.counter + 1) s.speed = 0 := Int.dvd_iff_tmod_eq_zero.mp hdiv
      rw [if_pos hgate]
      refine ⟨(stream_step sc ((i : Int) * spacing) rnd k { s with counter := s.counter + 1 }).1,
        (stream_step sc ((i : Int) * spacing) rnd k { s with counter := s.counter + 1 }).2.1,
        (stream_step sc ((i : Int) * spacing) rnd k { s with counter := s.counter + 1 }).2.2,
        rfl, (stream_step_speed sc _ rnd k _).2,
        (stream_step_speed sc _ rnd k _).1, fun h => absurd hdiv h, fun _ => rfl, ?_⟩
      intro hmax
      refine ⟨fun _ => hdiv, fun _ => ?_⟩
      by_cases hr : s.y + 1 - s.length > sc.max_y
      · obtain ⟨j, _, _, hj⟩ := stream_step_restart sc ((i : Int) * spacing) rnd k
          { s with counter := s.counter + 1 } hr
        rw [hj]
        have hb := rand_reset_bounds (rnd j)
        have hl := rand_length_bounds (rnd (j + 1))
        intro heq
        simp only [Prod.mk.injEq] at heq
        have hy := heq.1
        have hlen := heq.2
        omega
      · rw [stream_step_advance sc _ rnd k { s with counter := s.counter + 1 } hr]
        intro heq
        simp only [Prod.mk.injEq] at heq
        have hy := heq.1
        omega
    · have hgate : ¬ Int.tmod (s.counter + 1) s.speed = 0 :=
        fun h => hdiv (Int.dvd_iff_tmod_eq_zero.mpr h)
      rw [if_neg hgate]
      refine ⟨_, _, _, rfl, rfl, rfl, fun _ => ⟨rfl, rfl, rfl⟩, fun h => absurd h hdiv, ?_⟩
      intro _
      exact ⟨fun h => absurd rfl h, fun h => absurd h hdiv⟩
  · intro hc t j n ks kt hn htc hst
    obtain ⟨s1, h1⟩ := hcount s i n ks hc hs hn
    obtain ⟨t1, h2⟩ := hcount t j n kt htc (by omega) hn
    refine ⟨s1, t1, _, _, h1, h2, ?_⟩
    apply Nat.div_le_div_left
    · omega
    · omega

/-- C8, amended, at concrete streams: from counter 0 a stream of speed 2 takes 3
steps in 7 ticks, and a stream of speed 3 takes no more steps than it. -/
theorem stream_tick_gating_witness :
    (∃ s1, run_stream ⟨10, 8, 4, 2, 3, 4, [], 1, 2⟩ 0 (fun r => r) 7 (fun t => 3 * t)
      ⟨0, 2, 8, 0⟩ = some (s1, 3)) ∧
    (∃ s1 t1 c d,
      run_stream ⟨10, 8, 4, 2, 3, 4, [], 1, 2⟩ 0 (fun r => r) 7 (fun t => 3 * t) ⟨0, 2, 8, 0⟩
        = some (s1, c) ∧
      run_stream ⟨10, 8, 4, 2, 3, 4, [], 1, 2⟩ 1 (fun r => r) 7 (fun t => 3 * t + 1)
        ⟨5, 3, 9, 0⟩ = some (t1, d) ∧ d ≤ c) :=
  ⟨(stream_tick_gating ⟨10, 8, 4, 2, 3, 4, [], 1, 2⟩ 0 (fun r => r) 0 ⟨0, 2, 8, 0⟩
      (by decide) (by decide) (by decide)).2.1 rfl 7 (fun t => 3 * t) (by decide),
   (stream_tick_gating ⟨10, 8, 4, 2, 3, 4, [], 1, 2⟩ 0 (fun r => r) 0 ⟨0, 2, 8, 0⟩
      (by decide) (by decide) (by decide)).2.2 rfl ⟨5, 3, 9, 0⟩ 1 7 (fun t => 3 * t)
      (fun t => 3 * t + 1) (by decide) rfl (by decide)⟩

/-! ## C9: speed and length of the streams -/

/-- C9. On a terminal with `max_y >= 1`, for every random sequence and every number
`n` of ticks, the set-up and the `n` ticks are defined (no division by zero), and
every stream of the state reached has speed in 1..3 and length in 8..17; the
speeds are those set at initialisation, and the next gating test of every stream
is defined as well. -/
theorem streams_invariant (max_y max_x : Int) (hmax : 1 ≤ max_y)
    (skull_lines : List (List Char))
    (skull_height skull_width rain_color skull_color : Int) (rnd : Nat → Nat) (n : Nat) :
    ∃ a0 a,
      init_anim max_y max_x skull_lines skull_height skull_width rain_color skull_color rnd
        = some a0 ∧
      run rnd n a0 = some a ∧
      a0.streams.length = (Int.tdiv max_x spacing).toNat ∧
      (∀ s ∈ a.streams, 1 ≤ s.speed ∧ s.speed ≤ 3 ∧ 8 ≤ s.length ∧ s.length ≤ 17) ∧
      a.streams.map Stream.speed = a0.streams.map Stream.speed ∧
      (∀ s ∈ a.streams, ∀ i k, stream_tick a.scene i rnd k s ≠ none) := by
  obtain ⟨l, k1, hinit, hlen, hok⟩ :=
    init_streams_ok max_y rnd (by omega) (Int.tdiv max_x spacing).toNat 0
  have hok0 : ∀ s ∈ l, stream_ok s := fun s hs => (hok s hs).1
  obtain ⟨a, hrun, hoka, hsp⟩ := run_ok rnd n
    { scene := { max_y := max_y, max_x := max_x,
                 skull_y := (center_skull max_y max_x skull_height skull_width).1,
                 skull_x := (center_skull max_y max_x skull_height skull_width).2,
                 skull_height := skull_height, skull_width := skull_width,
                 skull_lines := skull_lines,
                 rain_color := rain_color, skull_color := skull_color },
      streams := l, next := k1 } hok0
  refine ⟨_, a, by simp only [init_anim, hinit], hrun, hlen, hoka, hsp, ?_⟩
  intro s hs i k hnone
  obtain ⟨s1, ops, k2, h, _⟩ := stream_tick_ok a.scene i rnd k s (hoka s hs)
  rw [h] at hnone
  exact absurd hnone (by simp)

/-- C9, at a concrete terminal of 10 rows and 8 columns (4 streams), after 30
ticks. -/
theorem streams_invariant_witness :
    ∃ a0 a,
      init_anim 10 8 [] 3 4 1 2 (fun k => (k * 7919 + 13) % 1000) = some a0 ∧
      run (fun k => (k * 7919 + 13) % 1000) 30 a0 = some a ∧
      a0.streams.length = (Int.tdiv 8 spacing).toNat ∧
      (∀ s ∈ a.streams, 1 ≤ s.speed ∧ s.speed ≤ 3 ∧ 8 ≤ s.length ∧ s.length ≤ 17) ∧
      a.streams.map Stream.speed = a0.streams.map Stream.speed ∧
      (∀ s ∈ a.streams, ∀ i k,
        stream_tick a.scene i (fun k => (k * 7919 + 13) % 1000) k s ≠ none) :=
  streams_invariant 10 8 (by decide) [] 3 4 1 2 (fun k => (k * 7919 + 13) % 1000) 30

/-! ## C10: the placement rectangle -/

/-- C10. For a terminal and an art of non-negative sizes, with
`skull_y = max_y/2 - skull_height/2` and `skull_x = max_x/2 - skull_width/2` as
computed before the loop: the top and bottom margins differ by at most 1, and so
do the left and right margins; on each axis the rectangle lies inside the screen
when the art is no larger than the terminal; the initial state of the animation
holds this rectangle, and no tick of the animation changes it (nor anything else
of the scene). -/
theorem placement_centered (max_y max_x skull_height skull_width : Int)
    (hy : 0 ≤ max_y) (hx : 0 ≤ max_x) (hh : 0 ≤ skull_height) (hw : 0 ≤ skull_width) :
    (center_skull max_y max_x skull_height skull_width).1
      = Int.tdiv max_y 2 - Int.tdiv skull_height 2 ∧
    (center_skull max_y max_x skull_height skull_width).2
      = Int.tdiv max_x 2 - Int.tdiv skull_width 2 ∧
    (-1 ≤ (center_skull max_y max_x skull_height skull_width).1 -
        (max_y - ((center_skull max_y max_x skull_height skull_width).1 + skull_height)) ∧
      (center_skull max_y max_x skull_height skull_width).1 -
        (max_y - ((center_skull max_y max_x skull_height skull_width).1 + skull_height)) ≤ 1) ∧
    (-1 ≤ (center_skull max_y max_x skull_height skull_width).2 -
        (max_x - ((center_skull max_y max_x skull_height skull_width).2 + skull_width)) ∧
      (center_skull max_y max_x skull_height skull_width).2 -
        (max_x - ((center_skull max_y max_x skull_height skull_width).2 + skull_width)) ≤ 1) ∧
    (skull_height ≤ max_y →
      0 ≤ (center_skull max_y max_x skull_height skull_width).1 ∧
      (center_skull max_y max_x skull_height skull_width).1 + skull_height ≤ max_y) ∧
    (skull_width ≤ max_x →
      0 ≤ (center_skull max_y max_x skull_height skull_width).2 ∧
      (center_skull max_y max_x skull_height skull_width).2 + skull_width ≤ max_x) ∧
    (∀ (skull_lines : List (List Char)) (rain_color skull_color : Int) (rnd : Nat → Nat)
      (a0 : Anim),
      init_anim max_y max_x skull_lines skull_height skull_width rain_color skull_color rnd
        = some a0 →
      a0.scene.max_y = max_y ∧ a0.scene.max_x = max_x ∧
      a0.scene.skull_y = (center_skull max_y max_x skull_height skull_width).1 ∧
      a0.scene.skull_x = (center_skull max_y max_x skull_height skull_width).2 ∧
      a0.scene.skull_height = skull_height ∧ a0.scene.skull_width = skull_width ∧
      ∀ n a, run rnd n a0 = some a → a.scene = a0.scene) := by
  have e1 : Int.tdiv max_y 2 = max_y / 2 := Int.tdiv_eq_ediv hy (by decide)
  have e2 : Int.tdiv max_x 2 = max_x / 2 := Int.tdiv_eq_ediv hx (by decide)
  have e3 : Int.tdiv skull_height 2 = skull_height / 2 := Int.tdiv_eq_ediv hh (by decide)
  have e4 : Int.tdiv skull_width 2 = skull_width / 2 := Int.tdiv_eq_ediv hw (by decide)
  refine ⟨rfl, rfl, ?_, ?_, ?_, ?_, ?_⟩
  · simp only [center_skull, e1, e3]
    omega
  · simp only [center_skull, e2, e4]
    omega
  · intro hle
    simp only [center_skull, e1, e3]
    omega
  · intro hle
    simp only [center_skull, e2, e4]
    omega
  · intro skull_lines rain_color skull_color rnd a0 hinit
    unfold init_anim at hinit
    cases hs : init_streams max_y rnd (Int.tdiv max_x spacing).toNat 0 with
    | none => simp [hs] at hinit
    | some r =>
      obtain ⟨l, k⟩ := r
      simp only [hs, Option.some.injEq] at hinit
      subst hinit
      exact ⟨rfl, rfl, rfl, rfl, rfl, rfl, fun n a h => run_scene rnd n _ a h⟩

/-- C10, at a concrete terminal of 11 rows and 8 columns with an art of 4 rows and
5 columns: the rectangle starts at row 3 and column 2, and 30 ticks leave the
scene as it was. -/
theorem placement_centered_witness :
    center_skull 11 8 4 5 = (3, 2) ∧
    (0 ≤ (center_skull 11 8 4 5).1 ∧ (center_skull 11 8 4 5).1 + 4 ≤ 11) ∧
    ∃ a0, init_anim 11 8 [] 4 5 1 2 (fun k => k) = some a0 ∧
      ∀ n a, run (fun k => k) n a0 = some a → a.scene = a0.scene :=
  ⟨by decide,
   (placement_centered 11 8 4 5 (by decide) (by decide) (by decide) (by decide)).2.2.2.2.1
      (by decide),
   _, rfl,
   ((placement_centered 11 8 4 5 (by decide) (by decide) (by decide)
      (by decide)).2.2.2.2.2.2 [] 1 2 (fun k => k) _ rfl).2.2.2.2.2.2⟩

end Cskull
